import Mathlib

/-!
Verification development for the document-intake pipeline's orchestration layer:
the retry/fallback executor, the PHI scanner, the compliance logger and the
progress tracker, shallowly embedded from the TypeScript sources
(`src/pages/Index.tsx` and `src/utils/security.ts`).

Promises are modelled as pure `Except` computations; a JavaScript `throw` of a
possibly-uninitialized variable is modelled by `JsOutcome`, which distinguishes
throwing a defined error value from throwing `undefined`.
-/

namespace Vigilant

/-- Outcome of an async JavaScript call as seen by the caller: a resolved
value, a thrown error value, or a thrown `undefined` (from re-throwing a
variable that was never assigned). -/
inductive JsOutcome (E A : Type) where
  | ok (a : A)
  | err (e : E)
  | errUndefined
deriving DecidableEq, Repr

/-- `RetryConfig` from `Index.tsx`: all four numeric fields. -/
structure RetryConfig where
  maxAttempts : Int
  baseDelay : Int
  maxDelay : Int
  backoffMultiplier : Int
deriving DecidableEq, Repr

/-- `defaultRetryConfig` from `Index.tsx`. -/
def defaultRetryConfig : RetryConfig :=
  { maxAttempts := 3, baseDelay := 1000, maxDelay := 10000, backoffMultiplier := 2 }

/-- `Partial<RetryConfig>`: each field may be absent. -/
structure PartialRetryConfig where
  maxAttempts : Option Int := none
  baseDelay : Option Int := none
  maxDelay : Option Int := none
  backoffMultiplier : Option Int := none
deriving DecidableEq, Repr

/-- The spread `{ ...defaultRetryConfig, ...config }`: present fields of the
partial config override the defaults. -/
def mergeRetryConfig (config : PartialRetryConfig) : RetryConfig :=
  { maxAttempts := config.maxAttempts.getD defaultRetryConfig.maxAttempts,
    baseDelay := config.baseDelay.getD defaultRetryConfig.baseDelay,
    maxDelay := config.maxDelay.getD defaultRetryConfig.maxDelay,
    backoffMultiplier := config.backoffMultiplier.getD defaultRetryConfig.backoffMultiplier }

/-- The retry loop of `withRetry`. The operation is indexed by the attempt
number (starting at 1); `fuel` is the number of loop iterations left
(`maxAttempts - attempt + 1`). Returns the caller-visible outcome together
with the number of times the operation was invoked. When the fuel is 0 before
any attempt ran, the trailing `throw lastError!` re-throws the uninitialized
`lastError`, i.e. `undefined`. The backoff sleep has no effect on the
outcome or the invocation count and is not modelled. -/
def withRetryCore (op : Nat → Except E A) : Nat → Nat → JsOutcome E A × Nat
  | _, 0 => (.errUndefined, 0)
  | attempt, fuel + 1 =>
    match op attempt with
    | .ok a => (.ok a, 1)
    | .error e =>
      match fuel with
      | 0 => (.err e, 1)
      | f + 1 =>
        let r := withRetryCore op (attempt + 1) (f + 1)
        (r.1, r.2 + 1)

/-- `withRetry` from `Index.tsx`: merge the partial config over the defaults,
then run attempts `1, 2, ..., maxAttempts` (no iterations when
`maxAttempts <= 0`). -/
def withRetry (op : Nat → Except E A) (config : PartialRetryConfig) : JsOutcome E A × Nat :=
  withRetryCore op 1 (mergeRetryConfig config).maxAttempts.toNat

/-- A JavaScript `Error` as far as `isRetryableError` inspects it. -/
structure JsError where
  name : String
  message : String
deriving DecidableEq, Repr

/-- `needle.isPrefixOf`-style containment: does `hay` contain `needle` as a
contiguous sublist? (Model of `RegExp.test` for a pattern of literal
characters.) -/
def listContains (needle : List Char) : List Char → Bool
  | [] => needle.isEmpty
  | c :: rest => needle.isPrefixOf (c :: rest) || listContains needle rest

/-- Case-insensitive test for a literal pattern, modelling `/lit/i.test s`. -/
def testCI (lit : String) (s : String) : Bool :=
  listContains (lit.data.map Char.toLower) (s.data.map Char.toLower)

/-- Case-sensitive test for a literal pattern, modelling `/lit/.test s`. -/
def testCS (lit : String) (s : String) : Bool :=
  listContains lit.data s.data

/-- The fixed pattern list of `isRetryableError`, with its case flag
(`true` = case-insensitive `/i`). -/
def retryablePatterns : List (String × Bool) :=
  [("network", true), ("timeout", true), ("rate limit", true), ("temporary", true),
   ("502", false), ("503", false), ("504", false)]

/-- `isRetryableError` from `Index.tsx`: some pattern matches the error's
message or name. -/
def isRetryableError (error : JsError) : Bool :=
  retryablePatterns.any fun p =>
    (if p.2 then testCI p.1 error.message || testCI p.1 error.name
     else testCS p.1 error.message || testCS p.1 error.name)

/-- `createFallbackHandler` from `Index.tsx`, applied (both operations
modelled as settled `Except` computations): try the primary; on a throw, log
and try the fallback; if the fallback also throws, log distinctly and
re-throw the fallback's error. Returns the caller-visible outcome together
with the contexts logged via `logError`. -/
def createFallbackHandler (primary fallback : Except E A) (context : String) :
    JsOutcome E A × List String :=
  match primary with
  | .ok a => (.ok a, [])
  | .error _ =>
    match fallback with
    | .ok a => (.ok a, [context ++ " - Primary operation failed, using fallback"])
    | .error e2 =>
      (.err e2,
       [context ++ " - Primary operation failed, using fallback",
        context ++ " - Fallback operation also failed"])

/-! ## A small backtracking regex engine

The six `PHI_PATTERNS` of `security.ts` use only literal characters,
character classes, fixed alternations, `?`, counted/unbounded greedy
class repetition and the word-boundary assertion `\b`, so the engine
implements exactly those constructs with JavaScript semantics: leftmost
match, alternatives tried left to right, greedy quantifiers with
backtracking. -/

/-- Regex abstract syntax (the fragment the six patterns need). `rep f min`
is the greedy `f{min,}` over a character class. -/
inductive RE where
  | eps : RE
  | cls (f : Char → Bool) : RE
  | seq (a b : RE) : RE
  | alt (a b : RE) : RE
  | opt (a : RE) : RE
  | rep (f : Char → Bool) (min : Nat) : RE
  | wb : RE

/-- JavaScript `\w` (ASCII, no `u` flag): letters, digits, underscore. -/
def isWordCh (c : Char) : Bool :=
  c.isAlpha || c.isDigit || c = '_'

/-- JavaScript `\s` on the ASCII range (space, tab, LF, CR, VT, FF). -/
def isSpaceCh (c : Char) : Bool :=
  c = ' ' || c = '\t' || c = '\n' || c = '\r' || c = '\x0b' || c = '\x0c'

/-- `\b`: holds between the previous character (`none` at the start of the
string) and the rest of the input iff exactly one side is a word character. -/
def isBoundary (prev : Option Char) (s : List Char) : Bool :=
  (match prev with | some c => isWordCh c | none => false)
    != (match s with | c :: _ => isWordCh c | [] => false)

/-- Greedy repetition matcher: consume as many `f`-characters as possible,
then backtrack one at a time, never below `min` (`min` counts down as
characters are consumed). `k` is the continuation receiving the previous
character and the remaining input; a `some` result is the final remainder of
a successful overall match. -/
def repMat (f : Char → Bool) (k : Option Char → List Char → Option (List Char)) :
    Nat → Option Char → List Char → Option (List Char)
  | min, prev, [] => if min = 0 then k prev [] else none
  | min, prev, c :: rest =>
    if f c then
      match repMat f k (min - 1) (some c) rest with
      | some r => some r
      | none => if min = 0 then k prev (c :: rest) else none
    else
      if min = 0 then k prev (c :: rest) else none

/-- The backtracking matcher in continuation-passing style. `matRE re prev s k`
attempts to match `re` at the start of `s` (with `prev` the character just
before `s`), calling `k` on the state after the match; it returns the first
success in JavaScript priority order. -/
def matRE : RE → Option Char → List Char → (Option Char → List Char → Option (List Char)) →
    Option (List Char)
  | .eps, prev, s, k => k prev s
  | .wb, prev, s, k => if isBoundary prev s then k prev s else none
  | .cls f, _, s, k =>
    match s with
    | [] => none
    | c :: rest => if f c then k (some c) rest else none
  | .seq a b, prev, s, k => matRE a prev s fun p r => matRE b p r k
  | .alt a b, prev, s, k =>
    match matRE a prev s k with
    | some r => some r
    | none => matRE b prev s k
  | .opt a, prev, s, k =>
    match matRE a prev s k with
    | some r => some r
    | none => k prev s
  | .rep f min, prev, s, k => repMat f k min prev s

/-- Length of the match of `re` anchored at the current position, if any. -/
def matchLen (re : RE) (prev : Option Char) (s : List Char) : Option Nat :=
  match matRE re prev s fun _ rest => some rest with
  | some rest => some (s.length - rest.length)
  | none => none

/-- One step of the global scan: all matches of `re` in `s`, leftmost and
non-overlapping, as `String.prototype.match` with the `g` flag returns them.
`fuel` bounds the recursion (any `fuel ≥ s.length` gives the same result);
a zero-length match advances the scan by one character. -/
def scanLoop (re : RE) : Nat → Option Char → List Char → List (List Char)
  | 0, _, _ => []
  | _ + 1, prev, [] =>
    match matchLen re prev [] with
    | some _ => [[]]
    | none => []
  | fuel + 1, prev, c :: rest =>
    match matchLen re prev (c :: rest) with
    | none => scanLoop re fuel (some c) rest
    | some 0 => [] :: scanLoop re fuel (some c) rest
    | some (n + 1) =>
      (c :: rest).take (n + 1) ::
        scanLoop re fuel (((c :: rest).take (n + 1)).getLast?) ((c :: rest).drop (n + 1))

/-- All matches of `re` in `s` (model of `s.match(re)` with `g`, where a null
result stands for the empty list). -/
def matchAll (re : RE) (s : List Char) : List (List Char) :=
  scanLoop re s.length none s

/-- One step of the global replace: copy non-matching characters, substitute
`marker` for each leftmost non-overlapping match, as
`String.prototype.replace` with the `g` flag. -/
def replaceLoop (re : RE) (marker : List Char) : Nat → Option Char → List Char → List Char
  | 0, _, s => s
  | _ + 1, prev, [] =>
    match matchLen re prev [] with
    | some _ => marker
    | none => []
  | fuel + 1, prev, c :: rest =>
    match matchLen re prev (c :: rest) with
    | none => c :: replaceLoop re marker fuel (some c) rest
    | some 0 => marker ++ c :: replaceLoop re marker fuel (some c) rest
    | some (n + 1) =>
      marker ++
        replaceLoop re marker fuel (((c :: rest).take (n + 1)).getLast?) ((c :: rest).drop (n + 1))

/-- `s.replace(re, marker)` with the `g` flag. -/
def replaceAll (re : RE) (marker : List Char) (s : List Char) : List Char :=
  replaceLoop re marker s.length none s

/-! ## The six `PHI_PATTERNS` -/

/-- A literal character. -/
def lch (c : Char) : RE := .cls (· = c)

/-- A literal character under the `i` flag: either case is accepted. -/
def lchCI (c : Char) : RE := .cls fun x => x = c.toLower || x = c.toUpper

/-- Concatenation of a nonempty list of regexes (a singleton stays as is,
so a pattern written `[wb, ..., wb]` ends in a bare `wb`). -/
def seqAll : List RE → RE
  | [] => .eps
  | [r] => r
  | r :: rest => .seq r (seqAll rest)

/-- A case-sensitive literal string. -/
def litStr (s : String) : RE := seqAll (s.data.map lch)

/-- A case-insensitive literal string. -/
def litStrCI (s : String) : RE := seqAll (s.data.map lchCI)

/-- `\d`. -/
def dig : RE := .cls Char.isDigit

/-- `\d{n}`. -/
def digN (n : Nat) : RE := seqAll (List.replicate n dig)

/-- `SSN: /\b\d{3}-?\d{2}-?\d{4}\b/g`. -/
def ssnRE : RE :=
  seqAll [.wb, digN 3, .opt (lch '-'), digN 2, .opt (lch '-'), digN 4, .wb]

/-- `PHONE: /\b\d{3}[-.]?\d{3}[-.]?\d{4}\b/g`. -/
def phoneRE : RE :=
  seqAll [.wb, digN 3, .opt (.cls fun c => c = '-' || c = '.'), digN 3,
          .opt (.cls fun c => c = '-' || c = '.'), digN 4, .wb]

/-- The local-part class `[A-Za-z0-9._%+-]` of the EMAIL pattern. -/
def emailLocalCh (c : Char) : Bool :=
  c.isAlpha || c.isDigit || c = '.' || c = '_' || c = '%' || c = '+' || c = '-'

/-- The domain class `[A-Za-z0-9.-]` of the EMAIL pattern. -/
def emailDomainCh (c : Char) : Bool :=
  c.isAlpha || c.isDigit || c = '.' || c = '-'

/-- The top-level-domain class `[A-Z|a-z]` of the EMAIL pattern; it contains
the literal `|` exactly as written in the source. -/
def emailTldCh (c : Char) : Bool :=
  ('A' ≤ c && c ≤ 'Z') || c = '|' || ('a' ≤ c && c ≤ 'z')

/-- `EMAIL: /\b[A-Za-z0-9._%+-]+@[A-Za-z0-9.-]+\.[A-Z|a-z]{2,}\b/g`. -/
def emailRE : RE :=
  seqAll [.wb, .rep emailLocalCh 1, lch '@', .rep emailDomainCh 1, lch '.',
          .rep emailTldCh 2, .wb]

/-- `(0[1-9]|1[0-2])` — the month group of the DOB pattern. -/
def dobMonth : RE :=
  .alt (.seq (lch '0') (.cls fun c => '1' ≤ c && c ≤ '9'))
       (.seq (lch '1') (.cls fun c => '0' ≤ c && c ≤ '2'))

/-- `(0[1-9]|[12]\d|3[01])` — the day group of the DOB pattern. -/
def dobDay : RE :=
  .alt (.seq (lch '0') (.cls fun c => '1' ≤ c && c ≤ '9'))
       (.alt (.seq (.cls fun c => c = '1' || c = '2') dig)
             (.seq (lch '3') (.cls fun c => c = '0' || c = '1')))

/-- `[\/\-]` — the separator class of the DOB pattern. -/
def dobSep : RE := .cls fun c => c = '/' || c = '-'

/-- `DATE_OF_BIRTH: /\b(0[1-9]|1[0-2])[\/\-](0[1-9]|[12]\d|3[01])[\/\-](19|20)\d{2}\b/g`. -/
def dobRE : RE :=
  seqAll [.wb, dobMonth, dobSep, dobDay, dobSep,
          .alt (litStr "19") (litStr "20"), digN 2, .wb]

/-- `[\s\-]` under the medical-record / health-card patterns. -/
def spaceDash : RE := .cls fun c => isSpaceCh c || c = '-'

/-- `MEDICAL_RECORD: /\b(MR|MRN|MEDICAL[\s\-]?RECORD)[\s\-]?#?[\s\-]?(\d{6,})\b/gi`. -/
def mrRE : RE :=
  seqAll [.wb,
          .alt (litStrCI "MR")
               (.alt (litStrCI "MRN")
                     (.seq (litStrCI "MEDICAL") (.seq (.opt spaceDash) (litStrCI "RECORD")))),
          .opt spaceDash, .opt (lch '#'), .opt spaceDash, .rep Char.isDigit 6, .wb]

/-- `HEALTH_CARD: /\b(HC|HEALTH[\s\-]?CARD)[\s\-]?#?[\s\-]?(\d{8,})\b/gi`. -/
def hcRE : RE :=
  seqAll [.wb,
          .alt (litStrCI "HC")
               (.seq (litStrCI "HEALTH") (.seq (.opt spaceDash) (litStrCI "CARD"))),
          .opt spaceDash, .opt (lch '#'), .opt spaceDash, .rep Char.isDigit 8, .wb]

/-- `PHI_PATTERNS` as the ordered association list `Object.entries` iterates
over in `detectPHI` and `sanitizeForExport`. -/
def PHI_PATTERNS : List (String × RE) :=
  [("SSN", ssnRE), ("PHONE", phoneRE), ("EMAIL", emailRE),
   ("DATE_OF_BIRTH", dobRE), ("MEDICAL_RECORD", mrRE), ("HEALTH_CARD", hcRE)]

/-! ## PHI scanner -/

/-- The `classification` union of `PHIField`. -/
inductive Classification where
  | PII | PHI | SENSITIVE | PUBLIC
deriving DecidableEq, Repr

/-- `PHIField` from `security.ts`. -/
structure PHIField where
  field : String
  value : String
  isEncrypted : Bool
  classification : Classification
deriving DecidableEq, Repr

/-- `detectPHI` from `security.ts`: for each pattern category in order, one
field per match, EMAIL classified PII and every other category PHI. -/
def detectPHI (text : String) : List PHIField :=
  PHI_PATTERNS.flatMap fun p =>
    (matchAll p.2 text.data).map fun m =>
      { field := p.1, value := m.asString, isEncrypted := false,
        classification := if p.1 = "EMAIL" then .PII else .PHI }

/-- The replacement marker for a category. -/
def redactedMarker (fieldType : String) : String :=
  "[REDACTED_" ++ fieldType ++ "]"

/-- The string branch of `sanitizeForExport`: the six global replaces applied
in sequence. -/
def sanitizeStr (s : List Char) : List Char :=
  PHI_PATTERNS.foldl (fun acc p => replaceAll p.2 (redactedMarker p.1).data acc) s

/-- A cycle-free JavaScript value as `sanitizeForExport` walks it: strings,
arrays, plain objects, and the remaining scalars (numbers, booleans, null)
which pass through unchanged. -/
inductive JsValue where
  | str (s : String)
  | num (n : Int)
  | bool (b : Bool)
  | null
  | arr (l : List JsValue)
  | obj (l : List (String × JsValue))
deriving Repr

mutual

/-- `sanitizeForExport` from `security.ts`: redact string leaves, map arrays
element-wise and objects value-wise, pass other scalars through. -/
def sanitizeForExport : JsValue → JsValue
  | .str s => .str (sanitizeStr s.data).asString
  | .arr l => .arr (sanitizeArr l)
  | .obj l => .obj (sanitizeObj l)
  | .num n => .num n
  | .bool b => .bool b
  | .null => .null

/-- Element-wise sanitization of an array value. -/
def sanitizeArr : List JsValue → List JsValue
  | [] => []
  | v :: rest => sanitizeForExport v :: sanitizeArr rest

/-- Value-wise sanitization of an object, keys preserved. -/
def sanitizeObj : List (String × JsValue) → List (String × JsValue)
  | [] => []
  | (k, v) :: rest => (k, sanitizeForExport v) :: sanitizeObj rest

end

/-! ## Object spreads and `Map` operations -/

/-- First value stored under a key in an entry list. -/
def lookupEntry (l : List (String × JsValue)) (k : String) : Option JsValue :=
  (l.find? fun kv => kv.1 = k).map Prod.snd

/-- The JavaScript spread `{ ...a, ...b }`: keys of `a` keep their position,
with `b`'s value when `b` also has the key; keys only in `b` follow. -/
def mergeEntries (a b : List (String × JsValue)) : List (String × JsValue) :=
  (a.map fun kv => (kv.1, (lookupEntry b kv.1).getD kv.2)) ++
    b.filter fun kv => (lookupEntry a kv.1).isNone

/-- `Map.set`: overwrite the existing binding in place, or append. -/
def setAssoc (m : List (String × α)) (k : String) (v : α) : List (String × α) :=
  match m with
  | [] => [(k, v)]
  | (k', v') :: rest => if k' = k then (k, v) :: rest else (k', v') :: setAssoc rest k v

/-- `Map.get` (with `Map.has` folded in): the stored binding, if any. -/
def getAssoc (m : List (String × α)) (k : String) : Option α :=
  (m.find? fun kv => kv.1 = k).map Prod.snd

/-- JavaScript `a || b` on strings: the empty string is falsy. -/
def jsOrStr (a b : String) : String :=
  if a = "" then b else a

/-- `a || b` where `a` is an optional string (absent and empty are falsy). -/
def jsOrOptStr (a : Option String) (b : String) : String :=
  match a with
  | some s => jsOrStr s b
  | none => b

/-! ## Compliance logger -/

/-- A row of the `processing_logs` store; `timestamp` is the column the
backing store fills at insert time. -/
structure LogRow where
  document_id : Option String
  user_id : String
  action : String
  details : List (String × JsValue)
  timestamp : String
deriving Repr

/-- The argument record of `logComplianceEvent`. -/
structure ComplianceEvent where
  action : String
  documentId : Option String := none
  phiFields : Option (List PHIField) := none
  userId : Option String := none
  details : Option (List (String × JsValue)) := none

/-- The printed name of a classification. -/
def classificationName : Classification → String
  | .PII => "PII"
  | .PHI => "PHI"
  | .SENSITIVE => "SENSITIVE"
  | .PUBLIC => "PUBLIC"

/-- The row `logComplianceEvent` inserts: namespaced action, identity
resolved as `event.userId || user?.id || 'system'`, and the PHI summary
defaults merged under the caller's `details` (the spread puts the caller's
keys last, so they overwrite). -/
def complianceRow (user : Option String) (now : String) (event : ComplianceEvent) : LogRow :=
  { document_id := event.documentId,
    user_id := jsOrOptStr event.userId (jsOrOptStr user "system"),
    action := "compliance_" ++ event.action,
    details := mergeEntries
      [("phi_fields_count", .num (event.phiFields.getD []).length),
       ("phi_classifications",
        .arr ((event.phiFields.getD []).map fun f => .str (classificationName f.classification))),
       ("compliance_timestamp", .str now)]
      (event.details.getD []),
    timestamp := now }

/-- `logComplianceEvent` from `security.ts`. `auth` is the settled result of
`supabase.auth.getUser()` (it may reject, or resolve with or without a
user); `insertRes` is the settled result of the store insert. The whole body
sits in a `try` whose `catch` only calls `console.error`, so the function
always resolves; the result is the caller-visible completion, the console
messages, and the rows actually written. -/
def logComplianceEvent (auth : Except String (Option String))
    (insertRes : Except String Unit) (now : String) (event : ComplianceEvent) :
    Except String Unit × List String × List LogRow :=
  match auth with
  | .error e => (.ok (), ["Failed to log compliance event: " ++ e], [])
  | .ok user =>
    match insertRes with
    | .error e => (.ok (), ["Failed to log compliance event: " ++ e], [])
    | .ok _ => (.ok (), [], [complianceRow user now event])

/-- The `riskLevel` union of `validateDocumentSecurity`. -/
inductive RiskLevel where
  | LOW | MEDIUM | HIGH
deriving DecidableEq, Repr

/-- The record `validateDocumentSecurity` resolves with. -/
structure SecurityValidation where
  hasPHI : Bool
  phiFields : List PHIField
  riskLevel : RiskLevel
deriving DecidableEq, Repr

/-- `validateDocumentSecurity` from `security.ts`: scan, log one compliance
event summarizing the scan, and classify risk from the number of detected
fields. Returns the resolved record plus the console/log effects of the
embedded `logComplianceEvent` call. -/
def validateDocumentSecurity (auth : Except String (Option String))
    (insertRes : Except String Unit) (now : String) (documentId content : String) :
    SecurityValidation × List String × List LogRow :=
  let phiFields := detectPHI content
  let logged := logComplianceEvent auth insertRes now
    { action := "phi_detection", documentId := some documentId, phiFields := some phiFields,
      details := some [("document_scan_timestamp", .str now),
                       ("phi_detected", .bool (decide (phiFields.length > 0)))] }
  ({ hasPHI := phiFields.length > 0,
     phiFields := phiFields,
     riskLevel :=
       if phiFields.length > 5 then .HIGH
       else if phiFields.length > 0 then .MEDIUM
       else .LOW },
   logged.2.1, logged.2.2)

/-! ## Progress tracker -/

/-- The `status` union of `ProcessingProgress`. -/
inductive SessionStatus where
  | running | paused | completed | failed
deriving DecidableEq, Repr

/-- `ProcessingProgress` from `Index.tsx` (an absent `metadata` is the empty
entry list, which spreads identically to `undefined`). -/
structure ProcessingProgress where
  id : String
  documentId : String
  currentStep : String
  totalSteps : Int
  completedSteps : Int
  status : SessionStatus
  lastCheckpoint : String
  metadata : List (String × JsValue)
  createdAt : String
  updatedAt : String
deriving Repr

/-- The ambient behaviour of the tracker's collaborators during one
operation: the authenticated user (if any), whether `processing_logs`
inserts succeed, and the clock readings `new Date().toISOString()` /
`Date.now()`. -/
structure TrackerEnv where
  authUser : Option String
  insertOk : Bool
  now : String
  nowMs : Nat

/-- The tracker's mutable world: its in-process cache and the
`processing_logs` store (newest row first). -/
structure TrackerState where
  cache : List (String × ProcessingProgress)
  store : List LogRow

/-- The stored name of a status. -/
def statusName : SessionStatus → String
  | .running => "running"
  | .paused => "paused"
  | .completed => "completed"
  | .failed => "failed"

/-- The inverse of `statusName`; rows written by other code with an
unrecognized status string are not representable in this typed model. -/
def statusFromName : String → Option SessionStatus
  | "running" => some .running
  | "paused" => some .paused
  | "completed" => some .completed
  | "failed" => some .failed
  | _ => none

/-- The `details` snapshot `saveProgress` writes for a session. -/
def progressDetails (p : ProcessingProgress) : List (String × JsValue) :=
  [("id", .str p.id), ("current_step", .str p.currentStep),
   ("total_steps", .num p.totalSteps), ("completed_steps", .num p.completedSteps),
   ("status", .str (statusName p.status)), ("last_checkpoint", .str p.lastCheckpoint),
   ("metadata", .obj p.metadata)]

/-- `ProgressTracker.saveProgress` with the caller-visible completion made
explicit: the `try` body resolves the user (throwing when unauthenticated),
inserts the snapshot row, then updates the cache; the `catch` only calls
`console.error`, so every branch completes normally (`Except.ok`). -/
def saveProgressJS (env : TrackerEnv) (st : TrackerState) (p : ProcessingProgress) :
    Except String (TrackerState × List String) :=
  match env.authUser with
  | none => .ok (st, ["Failed to save progress: User not authenticated"])
  | some uid =>
    if env.insertOk then
      let row : LogRow :=
        { document_id := some p.documentId, user_id := uid, action := "progress_update",
          details := progressDetails p, timestamp := env.now }
      let cached := { p with createdAt := jsOrStr p.createdAt env.now, updatedAt := env.now }
      .ok ({ cache := setAssoc st.cache p.id cached, store := row :: st.store }, [])
    else
      .ok (st, ["Failed to save progress: insert failed"])

/-- `saveProgress` as the other tracker operations call it. -/
def saveProgress (env : TrackerEnv) (st : TrackerState) (p : ProcessingProgress) :
    TrackerState × List String :=
  match saveProgressJS env st p with
  | .ok r => r
  | .error _ => (st, [])

/-- The typed extraction `loadProgress` performs on a fetched row's
`details`, returning `none` for any malformed record. -/
def reconstructProgress (row : LogRow) : Option ProcessingProgress :=
  match lookupEntry row.details "id", lookupEntry row.details "current_step",
        lookupEntry row.details "total_steps", lookupEntry row.details "completed_steps",
        lookupEntry row.details "status", lookupEntry row.details "last_checkpoint" with
  | some (.str i), some (.str cs), some (.num ts), some (.num comp),
    some (.str stat), some (.str lc) =>
    match statusFromName stat, row.document_id with
    | some status, some docId =>
      some { id := i, documentId := docId, currentStep := cs, totalSteps := ts,
             completedSteps := comp, status := status, lastCheckpoint := lc,
             metadata := (match lookupEntry row.details "metadata" with
                          | some (.obj m) => m
                          | _ => []),
             createdAt := row.timestamp, updatedAt := row.timestamp }
    | _, _ => none
  | _, _, _, _, _, _ => none

/-- `ProgressTracker.loadProgress`: cache first; on a miss, the most recent
`progress_update` row for the session, validated and cached. -/
def loadProgress (st : TrackerState) (progressId : String) :
    Option ProcessingProgress × TrackerState :=
  match getAssoc st.cache progressId with
  | some p => (some p, st)
  | none =>
    match st.store.find? fun r =>
        r.action = "progress_update" &&
          (match lookupEntry r.details "id" with
           | some (.str s) => s = progressId
           | _ => false) with
    | none => (none, st)
    | some row =>
      match reconstructProgress row with
      | none => (none, st)
      | some p => (some p, { st with cache := setAssoc st.cache progressId p })

/-- `ProgressTracker.resumeProcessing`: refuse when the session is missing or
`completed`; otherwise save it back with status forced to `running` and
report `true`. -/
def resumeProcessing (env : TrackerEnv) (st : TrackerState) (progressId : String) :
    Bool × TrackerState × List String :=
  let l := loadProgress st progressId
  match l.1 with
  | none => (false, l.2, [])
  | some p =>
    if p.status = .completed then (false, l.2, [])
    else
      let s := saveProgress env l.2 { p with status := .running, updatedAt := env.now }
      (true, s.1, s.2)

/-- Invoking the continuation returned by `ProgressTracker.createCheckpoint`:
load the session and, when present, save it back with the step advanced and
the metadata shallow-merged. -/
def runCheckpoint (env : TrackerEnv) (st : TrackerState) (progressId stepName : String)
    (metadata : List (String × JsValue)) : TrackerState × List String :=
  let l := loadProgress st progressId
  match l.1 with
  | none => (l.2, [])
  | some p =>
    saveProgress env l.2
      { p with currentStep := stepName, completedSteps := p.completedSteps + 1,
               lastCheckpoint := stepName, metadata := mergeEntries p.metadata metadata }

/-- `createProcessingSession` from `Index.tsx`: synthesize the session id
from the document id and the clock, save the initial snapshot, return the id. -/
def createProcessingSession (env : TrackerEnv) (st : TrackerState)
    (documentId : String) (totalSteps : Int) : String × TrackerState × List String :=
  let sessionId := "processing_" ++ documentId ++ "_" ++ toString env.nowMs
  let s := saveProgress env st
    { id := sessionId, documentId := documentId, currentStep := "initialized",
      totalSteps := totalSteps, completedSteps := 0, status := .running,
      lastCheckpoint := "initialized", metadata := [],
      createdAt := env.now, updatedAt := env.now }
  (sessionId, s.1, s.2)

/-- A concrete error none of the retryable patterns matches, for exercising
`isRetryableError` and `withRetry` together. -/
def sampleNonRetryableError : JsError :=
  { name := "TypeError", message := "undefined is not a function" }

/-- A concrete compliance event for exercising the logger. -/
def sampleEvent : ComplianceEvent :=
  { action := "phi_detection" }

/-- A concrete running session snapshot. -/
def sampleProgress : ProcessingProgress :=
  { id := "s1", documentId := "d1", currentStep := "scan", totalSteps := 5,
    completedSteps := 1, status := .running, lastCheckpoint := "scan",
    metadata := [], createdAt := "t0", updatedAt := "t0" }

/-- A concrete environment whose store rejects every insert. -/
def sampleEnvFailing : TrackerEnv :=
  { authUser := some "u1", insertOk := false, now := "t1", nowMs := 5 }

/-- A concrete environment where everything succeeds. -/
def sampleEnvOk : TrackerEnv :=
  { authUser := some "u1", insertOk := true, now := "t1", nowMs := 5 }

/-- The empty tracker world. -/
def sampleState : TrackerState :=
  { cache := [], store := [] }

/-- A tracker world whose cache holds the sample running session. -/
def sampleCachedState : TrackerState :=
  { cache := [("s1", sampleProgress)], store := [] }

/-- A session whose pipeline has failed. -/
def failedProgress : ProcessingProgress :=
  { id := "s2", documentId := "d2", currentStep := "extract", totalSteps := 5,
    completedSteps := 3, status := .failed, lastCheckpoint := "extract",
    metadata := [], createdAt := "t0", updatedAt := "t0" }

/-- A tracker world whose cache holds the failed session. -/
def failedState : TrackerState :=
  { cache := [("s2", failedProgress)], store := [] }

/-- A paused session. -/
def pausedProgress : ProcessingProgress :=
  { id := "s3", documentId := "d3", currentStep := "extract", totalSteps := 5,
    completedSteps := 2, status := .paused, lastCheckpoint := "extract",
    metadata := [], createdAt := "t0", updatedAt := "t0" }

/-- A tracker world whose cache holds the paused session. -/
def pausedState : TrackerState :=
  { cache := [("s3", pausedProgress)], store := [] }

/-! ## A declarative layer over the matcher, for the idempotence development -/

/-- Word-status of the previous-character context. -/
def prevW : Option Char → Bool
  | some c => isWordCh c
  | none => false

/-- Word-status of the head of the remaining input (an empty rest counts as
non-word, exactly as `isBoundary` treats it). -/
def headW : List Char → Bool
  | c :: _ => isWordCh c
  | [] => false

/-- The previous-character context after additionally consuming `t`. -/
def lastCtx (p : Option Char) (t : List Char) : Option Char :=
  match t.getLast? with
  | some c => some c
  | none => p

/-- Declarative semantics of the regex fragment: `Matches re p s q r` holds
when `re` can consume a prefix of `s` (context `p` just before it), leaving
rest `r` with context `q`. -/
inductive Matches : RE → Option Char → List Char → Option Char → List Char → Prop where
  | eps {p : Option Char} {s : List Char} : Matches .eps p s p s
  | wb {p : Option Char} {s : List Char} :
      isBoundary p s = true → Matches .wb p s p s
  | cls {f : Char → Bool} {c : Char} {p : Option Char} {rest : List Char} :
      f c = true → Matches (.cls f) p (c :: rest) (some c) rest
  | seq {a b : RE} {p p1 q : Option Char} {s s1 r : List Char} :
      Matches a p s p1 s1 → Matches b p1 s1 q r → Matches (.seq a b) p s q r
  | altL {a b : RE} {p q : Option Char} {s r : List Char} :
      Matches a p s q r → Matches (.alt a b) p s q r
  | altR {a b : RE} {p q : Option Char} {s r : List Char} :
      Matches b p s q r → Matches (.alt a b) p s q r
  | optS {a : RE} {p q : Option Char} {s r : List Char} :
      Matches a p s q r → Matches (.opt a) p s q r
  | optN {a : RE} {p : Option Char} {s : List Char} : Matches (.opt a) p s p s
  | repZ {f : Char → Bool} {n : Nat} {p : Option Char} {s : List Char} :
      n = 0 → Matches (.rep f n) p s p s
  | repS {f : Char → Bool} {c : Char} {n : Nat} {p q : Option Char} {rest r : List Char} :
      f c = true → Matches (.rep f (n - 1)) (some c) rest q r →
      Matches (.rep f n) p (c :: rest) q r

/-- No match of `re` starts at any position of `s` (context `p` before it). -/
def NoM (re : RE) : Option Char → List Char → Prop
  | p, [] => ¬∃ q r, Matches re p [] q r
  | p, c :: rest => (¬∃ q r, Matches re p (c :: rest) q r) ∧ NoM re (some c) rest

/-- Every character class of `re` lies inside `P`. -/
def reAlpha (re : RE) (P : Char → Bool) : Prop :=
  match re with
  | .eps => True
  | .wb => True
  | .cls f => ∀ c, f c = true → P c = true
  | .seq a b => reAlpha a P ∧ reAlpha b P
  | .alt a b => reAlpha a P ∧ reAlpha b P
  | .opt a => reAlpha a P
  | .rep f _ => ∀ c, f c = true → P c = true

/-- Every successful match of `re` consumes at least one `P`-character. -/
def MustCon (re : RE) (P : Char → Bool) : Prop :=
  match re with
  | .eps => False
  | .wb => False
  | .cls f => ∀ c, f c = true → P c = true
  | .seq a b => MustCon a P ∨ MustCon b P
  | .alt a b => MustCon a P ∧ MustCon b P
  | .opt _ => False
  | .rep f min => 1 ≤ min ∧ ∀ c, f c = true → P c = true

/-- `re` begins with a word-boundary assertion. -/
def StartsWb (re : RE) : Prop :=
  match re with
  | .wb => True
  | .seq a _ => StartsWb a
  | _ => False

/-- `re` ends with a word-boundary assertion. -/
def EndsWb (re : RE) : Prop :=
  match re with
  | .wb => True
  | .seq _ b => EndsWb b
  | _ => False

/-- Characters other than the marker brackets. -/
def bfree (c : Char) : Bool :=
  !(c = '[' : Bool) && !(c = ']' : Bool)

/-- A digit or the at-sign: every pattern must consume one, and redaction
markers contain none. -/
def digitAt (c : Char) : Bool :=
  c.isDigit || c = '@'

/-- The facts about a pattern that the idempotence argument uses: it begins
and ends with `\b`, all its classes avoid the marker brackets, and every
match consumes a digit or an `@`. -/
structure WFPat (re : RE) : Prop where
  starts : StartsWb re
  ends : EndsWb re
  alpha : reAlpha re bfree
  mustcon : MustCon re digitAt

/-- Shape of a redaction marker: an opening bracket, an interior free of
brackets, digits and `@`, and a closing bracket. -/
def MarkerShape (m : List Char) : Prop :=
  ∃ mid, m = '[' :: mid ++ [']'] ∧ ∀ c ∈ mid, bfree c = true ∧ digitAt c = false

/-- One run of the global replace, declaratively: each position either hosts
no match and its character is copied, or hosts a (nonempty) match which is
replaced by the marker. -/
inductive Lays (re : RE) (m : List Char) : Option Char → List Char → List Char → Prop where
  | nil : Lays re m p [] []
  | copy : matchLen re p (c :: rest) = none → Lays re m (some c) rest out →
      Lays re m p (c :: rest) (c :: out)
  | hit : Matches re p (t ++ rest) (lastCtx p t) rest → t ≠ [] →
      Lays re m (lastCtx p t) rest out →
      Lays re m p (t ++ rest) (m ++ out)

/-! ## Theorems -/

/-- If every attempt in the window fails, the loop runs through all its fuel
and ends holding the last error. -/
theorem withRetryCore_all_fail (op : Nat → Except E A) (errOf : Nat → E) :
    ∀ fuel start, (∀ i, start ≤ i → i < start + fuel + 1 → op i = .error (errOf i)) →
      withRetryCore op start (fuel + 1) = (.err (errOf (start + fuel)), fuel + 1) := by
  intro fuel
  induction fuel with
  | zero =>
    intro start h
    have hs := h start (Nat.le_refl _) (by omega)
    simp [withRetryCore, hs]
  | succ f ih =>
    intro start h
    have hs := h start (Nat.le_refl _) (by omega)
    have hrec := ih (start + 1) (fun i h1 h2 => h i (by omega) (by omega))
    simp only [withRetryCore, hs, hrec]
    have heq : start + 1 + f = start + (f + 1) := by omega
    rw [heq]

/-- If the first `j` attempts fail and attempt `start + j` succeeds within
the fuel, the loop stops there with the successful value after `j + 1`
invocations. -/
theorem withRetryCore_succeeds (op : Nat → Except E A) (errOf : Nat → E) (a : A) :
    ∀ j fuel start, j < fuel →
      (∀ i, start ≤ i → i < start + j → op i = .error (errOf i)) →
      op (start + j) = .ok a →
      withRetryCore op start fuel = (.ok a, j + 1) := by
  intro j
  induction j with
  | zero =>
    intro fuel start hlt _ hok
    obtain ⟨f, rfl⟩ : ∃ f, fuel = f + 1 := ⟨fuel - 1, by omega⟩
    simp only [Nat.add_zero] at hok
    simp [withRetryCore, hok]
  | succ j ih =>
    intro fuel start hlt hfail hok
    obtain ⟨f, rfl⟩ : ∃ f, fuel = f + 1 := ⟨fuel - 1, by omega⟩
    have hs := hfail start (Nat.le_refl _) (by omega)
    obtain ⟨g, rfl⟩ : ∃ g, f = g + 1 := ⟨f - 1, by omega⟩
    have hrec := ih (g + 1) (start + 1) (by omega)
      (fun i h1 h2 => hfail i (by omega) (by omega)) (by rw [show start + 1 + j = start + (j + 1) by omega]; exact hok)
    simp [withRetryCore, hs, hrec]

/-- The merged `maxAttempts` of a config that sets it. -/
theorem mergeRetryConfig_maxAttempts (config : PartialRetryConfig) (n : Int)
    (h : config.maxAttempts = some n) : (mergeRetryConfig config).maxAttempts = n := by
  simp [mergeRetryConfig, h]

/-- C1: for every operation and every retry configuration with
`maxAttempts = n ≥ 1`: if the operation fails on every invocation,
`withRetry` invokes it exactly `n` times and re-throws the error of the
final attempt; if it first succeeds on attempt `k ≤ n` (after failing on
attempts `1, ..., k-1`), `withRetry` invokes it exactly `k` times and
resolves with that result. -/
theorem withRetry_attempt_semantics (op : Nat → Except E A) (config : PartialRetryConfig)
    (errOf : Nat → E) (n : Nat) (hn : 1 ≤ n) (hcfg : config.maxAttempts = some (n : Int)) :
    ((∀ i, 1 ≤ i → i ≤ n → op i = .error (errOf i)) →
      withRetry op config = (.err (errOf n), n)) ∧
    (∀ k a, 1 ≤ k → k ≤ n → (∀ i, 1 ≤ i → i < k → op i = .error (errOf i)) →
      op k = .ok a → withRetry op config = (.ok a, k)) := by
  have hmax : (mergeRetryConfig config).maxAttempts.toNat = n := by
    rw [mergeRetryConfig_maxAttempts config _ hcfg]
    exact Int.toNat_natCast n
  constructor
  · intro hfail
    unfold withRetry
    rw [hmax]
    obtain ⟨m, rfl⟩ : ∃ m, n = m + 1 := ⟨n - 1, by omega⟩
    have hall := withRetryCore_all_fail op errOf m 1 (fun i h1 h2 => hfail i h1 (by omega))
    rw [hall, Nat.add_comm 1 m]
  · intro k a hk hkn hfail hok
    unfold withRetry
    rw [hmax]
    have hsucc := withRetryCore_succeeds op errOf a (k - 1) n 1 (by omega)
      (fun i h1 h2 => hfail i h1 (by omega))
      (by rw [show 1 + (k - 1) = k by omega]; exact hok)
    rw [hsucc, show k - 1 + 1 = k from by omega]

/-- Witness for C1 at a concrete operation failing twice then succeeding,
with `maxAttempts = 3`: both conjuncts are exercised. -/
theorem withRetry_attempt_semantics_witness :
    withRetry (fun i => if i < 3 then (.error "boom" : Except String Nat) else .ok 7)
      { maxAttempts := some 3 } = (.ok 7, 3) ∧
    withRetry (fun _ => (.error "boom" : Except String Nat)) { maxAttempts := some 3 }
      = (.err "boom", 3) :=
  ⟨(withRetry_attempt_semantics _ _ (fun _ => "boom") 3 (by decide) rfl).2 3 7
      (by decide) (by decide) (fun i h1 h2 => by rw [if_pos h2]) rfl,
   (withRetry_attempt_semantics _ _ (fun _ => "boom") 3 (by decide) rfl).1
      (fun i h1 h2 => rfl)⟩

/-- C10: with `maxAttempts ≤ 0` the loop body never executes, the operation
is never invoked, and `withRetry` throws the never-assigned `lastError`,
i.e. `undefined`. -/
theorem withRetry_nonpositive_max_attempts (op : Nat → Except E A)
    (config : PartialRetryConfig) (n : Int) (hcfg : config.maxAttempts = some n)
    (hn : n ≤ 0) : withRetry op config = (.errUndefined, 0) := by
  unfold withRetry
  rw [mergeRetryConfig_maxAttempts config _ hcfg, Int.toNat_of_nonpos hn]
  rfl

/-- Witness for C10 at `maxAttempts = 0` and a concrete operation. -/
theorem withRetry_nonpositive_max_attempts_witness :
    withRetry (fun _ => (.ok 1 : Except String Nat)) { maxAttempts := some 0 }
      = (.errUndefined, 0) :=
  withRetry_nonpositive_max_attempts _ _ 0 rfl (by decide)

/-- C8: `withRetry` never consults `isRetryableError`: an operation whose
every failure the classifier deems non-retryable is still retried up to the
attempt cap, and the invocation count does not depend on the error values at
all. -/
theorem withRetry_ignores_retryability (config : PartialRetryConfig) (n : Nat)
    (hn : 1 ≤ n) (hcfg : config.maxAttempts = some (n : Int)) :
    (∀ errOf : Nat → JsError, (∀ i, isRetryableError (errOf i) = false) →
      withRetry (fun i => (.error (errOf i) : Except JsError A)) config
        = (.err (errOf n), n)) ∧
    (∀ errOf errOf2 : Nat → JsError,
      (withRetry (fun i => (.error (errOf i) : Except JsError A)) config).2
        = (withRetry (fun i => (.error (errOf2 i) : Except JsError A)) config).2) := by
  have hfail : ∀ errOf : Nat → JsError,
      withRetry (fun i => (.error (errOf i) : Except JsError A)) config
        = (.err (errOf n), n) := by
    intro errOf
    exact (withRetry_attempt_semantics _ config errOf n hn hcfg).1 (fun i _ _ => rfl)
  exact ⟨fun errOf _ => hfail errOf, fun errOf errOf2 => by rw [hfail errOf, hfail errOf2]⟩

/-- Witness for C8 at a concrete non-retryable error (`isRetryableError`
evaluates to `false` on it) and `maxAttempts = 2`. -/
theorem withRetry_ignores_retryability_witness :
    isRetryableError sampleNonRetryableError = false ∧
    withRetry (fun _ => (.error sampleNonRetryableError : Except JsError Nat))
      { maxAttempts := some 2 }
      = (.err sampleNonRetryableError, 2) :=
  ⟨by decide,
   (withRetry_ignores_retryability (A := Nat) { maxAttempts := some 2 } 2 (by decide) rfl).1
     (fun _ => sampleNonRetryableError)
     (fun _ => (by decide : isRetryableError sampleNonRetryableError = false))⟩

/-- C7: `logComplianceEvent` and the tracker's `saveProgress` always resolve
normally, whatever the identity resolution and the log-store write do: a
failure is caught inside, reported only on the console, and nothing is
thrown to the caller (whose control flow therefore continues unaffected). -/
theorem logging_never_throws (auth : Except String (Option String))
    (insertRes : Except String Unit) (now : String) (event : ComplianceEvent)
    (env : TrackerEnv) (st : TrackerState) (p : ProcessingProgress) :
    (logComplianceEvent auth insertRes now event).1 = .ok () ∧
    (saveProgressJS env st p).isOk = true ∧
    (auth.isOk = false ∨ insertRes.isOk = false →
      (logComplianceEvent auth insertRes now event).2.1 ≠ [] ∧
      (logComplianceEvent auth insertRes now event).2.2 = []) ∧
    (env.authUser = none ∨ env.insertOk = false →
      ∃ msg, saveProgressJS env st p = .ok (st, [msg])) := by
  refine ⟨?_, ?_, ?_, ?_⟩
  · cases auth with
    | error e => rfl
    | ok user => cases insertRes with
      | error e => rfl
      | ok u => rfl
  · cases henv : env.authUser with
    | none => simp [saveProgressJS, henv, Except.isOk, Except.toBool]
    | some uid =>
      cases hins : env.insertOk with
      | true => simp [saveProgressJS, henv, hins, Except.isOk, Except.toBool]
      | false => simp [saveProgressJS, henv, hins, Except.isOk, Except.toBool]
  · intro h
    cases auth with
    | error e => exact ⟨by simp [logComplianceEvent], rfl⟩
    | ok user =>
      cases insertRes with
      | error e => exact ⟨by simp [logComplianceEvent], rfl⟩
      | ok u => simp [Except.isOk, Except.toBool] at h
  · intro h
    cases henv : env.authUser with
    | none => exact ⟨"Failed to save progress: User not authenticated",
        by simp [saveProgressJS, henv]⟩
    | some uid =>
      cases hins : env.insertOk with
      | true =>
        rw [henv] at h
        rw [hins] at h
        simp at h
      | false => exact ⟨"Failed to save progress: insert failed",
          by simp [saveProgressJS, henv, hins]⟩

/-- Witness for C7 at a rejecting store and a failing environment: both
functions still resolve, with console messages recording the failures. -/
theorem logging_never_throws_witness :
    (logComplianceEvent (.ok (some "u1")) (.error "db down") "t1" sampleEvent).1 = .ok () ∧
    (∃ msg, saveProgressJS sampleEnvFailing sampleState sampleProgress
      = .ok (sampleState, [msg])) :=
  ⟨(logging_never_throws (.ok (some "u1")) (.error "db down") "t1" sampleEvent
      sampleEnvFailing sampleState sampleProgress).1,
   (logging_never_throws (.ok (some "u1")) (.error "db down") "t1" sampleEvent
      sampleEnvFailing sampleState sampleProgress).2.2.2 (Or.inr rfl)⟩

/-- The record `validateDocumentSecurity` resolves with, written out. -/
theorem validateDocumentSecurity_fst (auth : Except String (Option String))
    (insertRes : Except String Unit) (now documentId content : String) :
    (validateDocumentSecurity auth insertRes now documentId content).1 =
      { hasPHI := (detectPHI content).length > 0,
        phiFields := detectPHI content,
        riskLevel := if (detectPHI content).length > 5 then .HIGH
                     else if (detectPHI content).length > 0 then .MEDIUM
                     else .LOW } := rfl

/-- C2: the result of `validateDocumentSecurity` is determined by the number
of fields `detectPHI` finds: `hasPHI` is true exactly when at least one
field is found, and the risk level is `LOW` for 0 fields, `MEDIUM` for 1 to
5 fields (5 included), `HIGH` from 6 fields up. -/
theorem validateDocumentSecurity_risk (auth : Except String (Option String))
    (insertRes : Except String Unit) (now documentId content : String) :
    ((validateDocumentSecurity auth insertRes now documentId content).1.phiFields
      = detectPHI content) ∧
    ((validateDocumentSecurity auth insertRes now documentId content).1.hasPHI = true ↔
      1 ≤ (detectPHI content).length) ∧
    ((detectPHI content).length = 0 →
      (validateDocumentSecurity auth insertRes now documentId content).1.riskLevel = .LOW) ∧
    (1 ≤ (detectPHI content).length → (detectPHI content).length ≤ 5 →
      (validateDocumentSecurity auth insertRes now documentId content).1.riskLevel = .MEDIUM) ∧
    (6 ≤ (detectPHI content).length →
      (validateDocumentSecurity auth insertRes now documentId content).1.riskLevel = .HIGH) := by
  rw [validateDocumentSecurity_fst]
  refine ⟨rfl, ?_, ?_, ?_, ?_⟩
  · simp only [decide_eq_true_eq]
    omega
  · intro h
    simp only []
    rw [if_neg (by omega), if_neg (by omega)]
  · intro h1 h2
    simp only []
    rw [if_neg (by omega), if_pos (by omega)]
  · intro h
    simp only []
    rw [if_pos (by omega)]

/-- Witness for C2 at a content containing one email address: one PHI field,
`hasPHI`, `MEDIUM` risk. -/
theorem validateDocumentSecurity_risk_witness :
    (validateDocumentSecurity (.ok (some "u1")) (.ok ()) "t1" "d1" "mail a@b.com").1.hasPHI
      = true ∧
    (validateDocumentSecurity (.ok (some "u1")) (.ok ()) "t1" "d1" "mail a@b.com").1.riskLevel
      = .MEDIUM :=
  ⟨(validateDocumentSecurity_risk (.ok (some "u1")) (.ok ()) "t1" "d1" "mail a@b.com").2.1.mpr
      (by decide),
   (validateDocumentSecurity_risk (.ok (some "u1")) (.ok ()) "t1" "d1" "mail a@b.com").2.2.2.1
      (by decide) (by decide)⟩

/-- C6: `detectPHI` yields one field per regex match of each of the six
fixed categories (duplicates kept, no deduplication); each field carries its
category's name, is never marked encrypted, and is classified PII exactly
for `EMAIL` and PHI otherwise; an input with zero pattern matches yields the
empty list (and never an error). -/
theorem detectPHI_per_category (text : String) :
    ((∀ p ∈ PHI_PATTERNS, matchAll p.2 text.data = []) → detectPHI text = []) ∧
    (∀ f ∈ detectPHI text, f.isEncrypted = false ∧
      f.classification = (if f.field = "EMAIL" then .PII else .PHI) ∧
      ∃ p ∈ PHI_PATTERNS, f.field = p.1 ∧
        ∃ m ∈ matchAll p.2 text.data, f.value = m.asString) ∧
    ((detectPHI text).length
      = (PHI_PATTERNS.map fun p => (matchAll p.2 text.data).length).sum) ∧
    (∀ p ∈ PHI_PATTERNS, (detectPHI text).filter (fun f => f.field = p.1)
      = (matchAll p.2 text.data).map fun m =>
          { field := p.1, value := m.asString, isEncrypted := false,
            classification := if p.1 = "EMAIL" then .PII else .PHI }) := by
  refine ⟨?_, ?_, ?_, ?_⟩
  · intro h
    unfold detectPHI
    rw [List.flatMap_eq_nil_iff]
    intro p hp
    rw [h p hp]
    rfl
  · intro f hf
    unfold detectPHI at hf
    rw [List.mem_flatMap] at hf
    obtain ⟨p, hp, hm⟩ := hf
    rw [List.mem_map] at hm
    obtain ⟨m, hmm, rfl⟩ := hm
    exact ⟨rfl, rfl, p, hp, rfl, m, hmm, rfl⟩
  · unfold detectPHI
    rw [List.length_flatMap]
    simp [Function.comp_def, List.length_map]
  · intro p hp
    simp only [PHI_PATTERNS, List.mem_cons, List.not_mem_nil, or_false] at hp
    rcases hp with rfl | rfl | rfl | rfl | rfl | rfl <;>
      simp [detectPHI, PHI_PATTERNS, List.filter_append, List.filter_map,
            Function.comp_def]

/-- Witness for C6 at the concrete text "hello, world-99", which no pattern
matches: the scanner returns the empty list. -/
theorem detectPHI_per_category_witness :
    detectPHI "hello, world-99" = [] :=
  (detectPHI_per_category "hello, world-99").1 (by decide)

/-- C3: the callable returned by `createFallbackHandler` has exactly three
possible behaviours: primary success propagates the primary's result, a
primary throw followed by fallback success yields the fallback's result,
and a double throw re-throws the fallback's error (never the primary's). -/
theorem createFallbackHandler_outcomes (primary fallback : Except E A) (context : String) :
    (∀ a, primary = .ok a → (createFallbackHandler primary fallback context).1 = .ok a) ∧
    (∀ e a, primary = .error e → fallback = .ok a →
      (createFallbackHandler primary fallback context).1 = .ok a) ∧
    (∀ e e2, primary = .error e → fallback = .error e2 →
      (createFallbackHandler primary fallback context).1 = .err e2) := by
  refine ⟨?_, ?_, ?_⟩
  · intro a h
    subst h
    rfl
  · intro e a h1 h2
    subst h1
    subst h2
    rfl
  · intro e e2 h1 h2
    subst h1
    subst h2
    rfl

/-- Witness for C3 at concrete primary/fallback outcomes, exercising all
three cases. -/
theorem createFallbackHandler_outcomes_witness :
    (createFallbackHandler (.ok 1) (.ok 2 : Except String Nat) "ctx").1 = .ok 1 ∧
    (createFallbackHandler (.error "p") (.ok 2 : Except String Nat) "ctx").1 = .ok 2 ∧
    (createFallbackHandler (.error "p") (.error "f" : Except String Nat) "ctx").1 = .err "f" :=
  ⟨(createFallbackHandler_outcomes _ _ "ctx").1 1 rfl,
   (createFallbackHandler_outcomes _ _ "ctx").2.1 "p" 2 rfl rfl,
   (createFallbackHandler_outcomes _ _ "ctx").2.2 "p" "f" rfl rfl⟩

/-- `getAssoc` on a cons. -/
theorem getAssoc_cons (k' : String) (v' : α) (l : List (String × α)) (k : String) :
    getAssoc ((k', v') :: l) k = if k' = k then some v' else getAssoc l k := by
  by_cases h : k' = k <;> simp [getAssoc, List.find?, h]

/-- A `Map.set` makes the key read back the stored value. -/
theorem getAssoc_setAssoc_self (m : List (String × α)) (k : String) (v : α) :
    getAssoc (setAssoc m k v) k = some v := by
  induction m with
  | nil => simp [setAssoc, getAssoc, List.find?]
  | cons kv rest ih =>
    obtain ⟨k', v'⟩ := kv
    by_cases h : k' = k
    · simp [setAssoc, h, getAssoc_cons]
    · simp [setAssoc, h, getAssoc_cons, ih]

/-- `lookupEntry` on a cons. -/
theorem lookupEntry_cons (k0 : String) (v0 : JsValue) (l : List (String × JsValue))
    (k : String) :
    lookupEntry ((k0, v0) :: l) k = if k0 = k then some v0 else lookupEntry l k := by
  by_cases h : k0 = k <;> simp [lookupEntry, List.find?, h]

/-- `lookupEntry` across an append prefers the left list. -/
theorem lookupEntry_append (l1 l2 : List (String × JsValue)) (k : String) :
    lookupEntry (l1 ++ l2) k =
      match lookupEntry l1 k with
      | some v => some v
      | none => lookupEntry l2 k := by
  induction l1 with
  | nil => simp [lookupEntry]
  | cons kv rest ih =>
    obtain ⟨k0, v0⟩ := kv
    by_cases h : k0 = k <;> simp [List.cons_append, lookupEntry_cons, h, ih]

/-- `lookupEntry` through the overriding map of `mergeEntries`. -/
theorem lookupEntry_map_override (a b : List (String × JsValue)) (k : String) :
    lookupEntry (a.map fun kv => (kv.1, (lookupEntry b kv.1).getD kv.2)) k
      = (lookupEntry a k).map fun v => (lookupEntry b k).getD v := by
  induction a with
  | nil => rfl
  | cons kv rest ih =>
    obtain ⟨k0, v0⟩ := kv
    by_cases h : k0 = k
    · subst h
      simp [lookupEntry_cons]
    · simp [lookupEntry_cons, h, ih]

/-- `lookupEntry` through the key-disjoint filter of `mergeEntries`. -/
theorem lookupEntry_filter_keys (a b : List (String × JsValue)) (k : String) :
    lookupEntry (b.filter fun kv => (lookupEntry a kv.1).isNone) k
      = if (lookupEntry a k).isNone then lookupEntry b k else none := by
  induction b with
  | nil => simp [lookupEntry]
  | cons kv rest ih =>
    obtain ⟨k0, v0⟩ := kv
    by_cases hk : k0 = k
    · subst hk
      cases ha : (lookupEntry a k0).isNone <;>
        simp [List.filter_cons, ha, lookupEntry_cons, ih]
    · cases ha : (lookupEntry a k0).isNone <;>
        simp [List.filter_cons, ha, lookupEntry_cons, hk, ih]

/-- The JavaScript spread `{ ...a, ...b }` reads back `b`'s value when `b`
has the key, else `a`'s: later keys overwrite. -/
theorem lookupEntry_mergeEntries (a b : List (String × JsValue)) (k : String) :
    lookupEntry (mergeEntries a b) k =
      match lookupEntry b k with
      | some v => some v
      | none => lookupEntry a k := by
  unfold mergeEntries
  rw [lookupEntry_append, lookupEntry_map_override, lookupEntry_filter_keys]
  cases ha : lookupEntry a k <;> cases hb : lookupEntry b k <;> simp [ha, hb]

/-- `a || b` when both sides are the same string. -/
theorem jsOrStr_self (a : String) : jsOrStr a a = a := by
  unfold jsOrStr
  split <;> rfl

/-- C9: a freshly created session starts with `completedSteps = 0`, status
`running` and `currentStep = lastCheckpoint = "initialized"`; and invoking a
checkpoint continuation on an existing session increments `completedSteps`
by exactly 1, sets `currentStep` and `lastCheckpoint` to the step name, and
shallow-merges the supplied metadata over the existing metadata (later keys
overwrite), all else (in particular the status) preserved. Stated for an
environment whose identity resolution and store writes succeed. -/
theorem session_creation_and_checkpoint (env : TrackerEnv) (st : TrackerState)
    (documentId : String) (totalSteps : Int) (progressId stepName : String)
    (meta : List (String × JsValue)) (uid : String)
    (henv : env.authUser = some uid) (hins : env.insertOk = true) :
    (∃ p, getAssoc (createProcessingSession env st documentId totalSteps).2.1.cache
        (createProcessingSession env st documentId totalSteps).1 = some p ∧
      p.completedSteps = 0 ∧ p.status = .running ∧ p.currentStep = "initialized" ∧
      p.lastCheckpoint = "initialized" ∧ p.documentId = documentId ∧
      p.totalSteps = totalSteps) ∧
    (∀ p, (loadProgress st progressId).1 = some p →
      ∃ q, getAssoc (runCheckpoint env st progressId stepName meta).1.cache p.id = some q ∧
        q.completedSteps = p.completedSteps + 1 ∧ q.currentStep = stepName ∧
        q.lastCheckpoint = stepName ∧ q.status = p.status ∧
        ∀ k, lookupEntry q.metadata k =
          match lookupEntry meta k with
          | some v => some v
          | none => lookupEntry p.metadata k) := by
  constructor
  · have h : getAssoc (createProcessingSession env st documentId totalSteps).2.1.cache
        (createProcessingSession env st documentId totalSteps).1
        = some { id := "processing_" ++ documentId ++ "_" ++ toString env.nowMs,
                 documentId := documentId, currentStep := "initialized",
                 totalSteps := totalSteps, completedSteps := 0, status := .running,
                 lastCheckpoint := "initialized", metadata := [],
                 createdAt := jsOrStr env.now env.now, updatedAt := env.now } := by
      simp only [createProcessingSession, saveProgress, saveProgressJS, henv, hins, if_true]
      exact getAssoc_setAssoc_self _ _ _
    exact ⟨_, h, rfl, rfl, rfl, rfl, rfl, rfl⟩
  · intro p hl
    have h : getAssoc (runCheckpoint env st progressId stepName meta).1.cache p.id
        = some { p with
                 currentStep := stepName, completedSteps := p.completedSteps + 1,
                 lastCheckpoint := stepName, metadata := mergeEntries p.metadata meta,
                 createdAt := jsOrStr p.createdAt env.now, updatedAt := env.now } := by
      simp only [runCheckpoint, hl, saveProgress, saveProgressJS, henv, hins, if_true]
      exact getAssoc_setAssoc_self _ _ _
    exact ⟨_, h, rfl, rfl, rfl, rfl, fun k => lookupEntry_mergeEntries p.metadata meta k⟩

/-- Witness for C9 at a concrete environment and cached session: session
creation and a checkpoint continuation on the sample session. -/
theorem session_creation_and_checkpoint_witness :
    (∃ p, getAssoc (createProcessingSession sampleEnvOk sampleState "d1" 5).2.1.cache
        (createProcessingSession sampleEnvOk sampleState "d1" 5).1 = some p ∧
      p.completedSteps = 0 ∧ p.status = .running ∧ p.currentStep = "initialized" ∧
      p.lastCheckpoint = "initialized" ∧ p.documentId = "d1" ∧ p.totalSteps = 5) ∧
    (∃ q, getAssoc (runCheckpoint sampleEnvOk sampleCachedState "s1" "extract"
        [("note", .str "ok")]).1.cache "s1" = some q ∧
      q.completedSteps = sampleProgress.completedSteps + 1 ∧ q.currentStep = "extract" ∧
      q.lastCheckpoint = "extract" ∧ q.status = sampleProgress.status ∧
      ∀ k, lookupEntry q.metadata k =
        match lookupEntry [("note", .str "ok")] k with
        | some v => some v
        | none => lookupEntry sampleProgress.metadata k) :=
  ⟨(session_creation_and_checkpoint sampleEnvOk sampleState "d1" 5 "s1" "extract"
      [("note", .str "ok")] "u1" rfl rfl).1,
   (session_creation_and_checkpoint sampleEnvOk sampleCachedState "d1" 5 "s1" "extract"
      [("note", .str "ok")] "u1" rfl rfl).2 sampleProgress rfl⟩

/-- C4 counterexample: the claim forbids the transition `failed → running`,
but `resumeProcessing` only refuses `completed` sessions: starting from a
cached session whose status is `failed`, resuming reports `true` and leaves
the session `running`. -/
theorem resume_revives_failed_session :
    (getAssoc failedState.cache "s2").map ProcessingProgress.status
      = some SessionStatus.failed ∧
    (resumeProcessing sampleEnvOk failedState "s2").1 = true ∧
    (getAssoc (resumeProcessing sampleEnvOk failedState "s2").2.1.cache "s2").map
        ProcessingProgress.status = some SessionStatus.running := by
  refine ⟨rfl, rfl, rfl⟩

/-- C4 (amended): under the tracker's operations the status moves as
follows: `saveProgress` stores exactly the status it is given; checkpoint
continuations preserve the status; `resumeProcessing` refuses a loaded
`completed` session (reporting `false` and saving nothing) and forces every
other loaded session — `paused` or `failed` alike — to `running`. So
`completed` is terminal with respect to resume, while `failed → running` is
reachable. Stated for an environment whose identity resolution and store
writes succeed. -/
theorem tracker_status_transitions (env : TrackerEnv) (st : TrackerState)
    (progressId stepName : String) (meta : List (String × JsValue)) (uid : String)
    (henv : env.authUser = some uid) (hins : env.insertOk = true) :
    (∀ p, (loadProgress st progressId).1 = some p → p.status = .completed →
      (resumeProcessing env st progressId).1 = false ∧
      (resumeProcessing env st progressId).2.1 = (loadProgress st progressId).2) ∧
    (∀ p, (loadProgress st progressId).1 = some p → p.status ≠ .completed →
      (resumeProcessing env st progressId).1 = true ∧
      ∃ q, getAssoc (resumeProcessing env st progressId).2.1.cache p.id = some q ∧
        q.status = .running) ∧
    (∀ p, (loadProgress st progressId).1 = some p →
      ∃ q, getAssoc (runCheckpoint env st progressId stepName meta).1.cache p.id = some q ∧
        q.status = p.status) ∧
    (∀ p, ∃ q, getAssoc (saveProgress env st p).1.cache p.id = some q ∧
      q.status = p.status) := by
  refine ⟨?_, ?_, ?_, ?_⟩
  · intro p hl hc
    constructor <;> simp [resumeProcessing, hl, hc]
  · intro p hl hc
    constructor
    · simp [resumeProcessing, hl, hc]
    · have h : getAssoc (resumeProcessing env st progressId).2.1.cache p.id
          = some { p with
                   status := .running, createdAt := jsOrStr p.createdAt env.now,
                   updatedAt := env.now } := by
        simp only [resumeProcessing, hl, if_neg hc, saveProgress, saveProgressJS, henv,
          hins, if_true]
        exact getAssoc_setAssoc_self _ _ _
      exact ⟨_, h, rfl⟩
  · intro p hl
    have h : getAssoc (runCheckpoint env st progressId stepName meta).1.cache p.id
        = some { p with
                 currentStep := stepName, completedSteps := p.completedSteps + 1,
                 lastCheckpoint := stepName, metadata := mergeEntries p.metadata meta,
                 createdAt := jsOrStr p.createdAt env.now, updatedAt := env.now } := by
      simp only [runCheckpoint, hl, saveProgress, saveProgressJS, henv, hins, if_true]
      exact getAssoc_setAssoc_self _ _ _
    exact ⟨_, h, rfl⟩
  · intro p
    have h : getAssoc (saveProgress env st p).1.cache p.id
        = some { p with createdAt := jsOrStr p.createdAt env.now, updatedAt := env.now } := by
      simp only [saveProgress, saveProgressJS, henv, hins, if_true]
      exact getAssoc_setAssoc_self _ _ _
    exact ⟨_, h, rfl⟩

/-- Witness for the amended C4 at a concrete paused session: resume reports
`true` and the session is `running` afterwards. -/
theorem tracker_status_transitions_witness :
    (resumeProcessing sampleEnvOk pausedState "s3").1 = true ∧
    ∃ q, getAssoc (resumeProcessing sampleEnvOk pausedState "s3").2.1.cache "s3" = some q ∧
      q.status = .running :=
  (tracker_status_transitions sampleEnvOk pausedState "s3" "step" [] "u1" rfl rfl).2.1
    pausedProgress rfl (by decide)

/-- `isBoundary` in terms of the context word-statuses. -/
theorem isBoundary_eq (p : Option Char) (s : List Char) :
    isBoundary p s = (prevW p != headW s) := rfl

/-- Soundness of the greedy repetition matcher against the declarative
semantics. -/
theorem repMat_sound (f : Char → Bool) :
    ∀ (s : List Char) (n : Nat) (p : Option Char)
      (k : Option Char → List Char → Option (List Char)) (r : List Char),
      repMat f k n p s = some r →
      ∃ q u, Matches (.rep f n) p s q u ∧ k q u = some r := by
  intro s
  induction s with
  | nil =>
    intro n p k r h
    simp only [repMat] at h
    split at h
    · exact ⟨p, [], .repZ (by omega), h⟩
    · cases h
  | cons c rest ih =>
    intro n p k r h
    simp only [repMat] at h
    by_cases hf : f c = true
    · rw [if_pos hf] at h
      cases hrec : repMat f k (n - 1) (some c) rest with
      | some r0 =>
        rw [hrec] at h
        obtain ⟨q, u, M, hk⟩ := ih (n - 1) (some c) k r0 hrec
        cases h
        exact ⟨q, u, .repS hf M, hk⟩
      | none =>
        rw [hrec] at h
        by_cases hn : n = 0
        · rw [if_pos hn] at h
          exact ⟨p, c :: rest, .repZ hn, h⟩
        · rw [if_neg hn] at h
          cases h
    · rw [if_neg hf] at h
      by_cases hn : n = 0
      · rw [if_pos hn] at h
        exact ⟨p, c :: rest, .repZ hn, h⟩
      · rw [if_neg hn] at h
        cases h

/-- Soundness of the backtracking matcher: a success means the declarative
semantics accepts some split on which the continuation succeeds. -/
theorem matRE_sound :
    ∀ (re : RE) (p : Option Char) (s : List Char)
      (k : Option Char → List Char → Option (List Char)) (r : List Char),
      matRE re p s k = some r → ∃ q u, Matches re p s q u ∧ k q u = some r := by
  intro re
  induction re with
  | eps =>
    intro p s k r h
    exact ⟨p, s, .eps, h⟩
  | wb =>
    intro p s k r h
    simp only [matRE] at h
    split at h
    · next hb => exact ⟨p, s, .wb hb, h⟩
    · cases h
  | cls f =>
    intro p s k r h
    cases s with
    | nil => cases h
    | cons c rest =>
      simp only [matRE] at h
      split at h
      · next hf => exact ⟨some c, rest, .cls hf, h⟩
      · cases h
  | seq a b iha ihb =>
    intro p s k r h
    simp only [matRE] at h
    obtain ⟨p1, s1, Ma, h2⟩ := iha p s _ r h
    obtain ⟨q, u, Mb, hk⟩ := ihb p1 s1 k r h2
    exact ⟨q, u, .seq Ma Mb, hk⟩
  | alt a b iha ihb =>
    intro p s k r h
    simp only [matRE] at h
    cases hm : matRE a p s k with
    | some r0 =>
      rw [hm] at h
      obtain ⟨q, u, Ma, hk⟩ := iha p s k r0 hm
      cases h
      exact ⟨q, u, .altL Ma, hk⟩
    | none =>
      rw [hm] at h
      obtain ⟨q, u, Mb, hk⟩ := ihb p s k r h
      exact ⟨q, u, .altR Mb, hk⟩
  | opt a iha =>
    intro p s k r h
    simp only [matRE] at h
    cases hm : matRE a p s k with
    | some r0 =>
      rw [hm] at h
      obtain ⟨q, u, Ma, hk⟩ := iha p s k r0 hm
      cases h
      exact ⟨q, u, .optS Ma, hk⟩
    | none =>
      rw [hm] at h
      exact ⟨p, s, .optN, h⟩
  | rep f n =>
    intro p s k r h
    exact repMat_sound f s n p k r h

/-- Completeness of the greedy repetition matcher: a declaratively accepted
split on which the continuation succeeds makes the matcher succeed. -/
theorem repMat_complete (f : Char → Bool) :
    ∀ (s : List Char) (n : Nat) (p q : Option Char) (u : List Char)
      (k : Option Char → List Char → Option (List Char)),
      Matches (.rep f n) p s q u → (k q u).isSome = true →
      (repMat f k n p s).isSome = true := by
  intro s
  induction s with
  | nil =>
    intro n p q u k M hk
    cases M with
    | repZ hn => simp [repMat, hn, hk]
  | cons c rest ih =>
    intro n p q u k M hk
    cases M with
    | repZ hn =>
      subst hn
      by_cases hf : f c = true
      · simp only [repMat, if_pos hf]
        cases hrec : repMat f k (0 - 1) (some c) rest with
        | some r0 => simp [hrec]
        | none => simp [hrec, hk]
      · simp [repMat, hf, hk]
    | repS hf M' =>
      have hrec := ih (n - 1) (some c) q u k M' hk
      cases hr : repMat f k (n - 1) (some c) rest with
      | some r0 => simp [repMat, hf, hr]
      | none => rw [hr] at hrec; cases hrec

/-- Completeness of the backtracking matcher. -/
theorem matRE_complete {re : RE} {p q : Option Char} {s u : List Char}
    (M : Matches re p s q u) :
    ∀ (k : Option Char → List Char → Option (List Char)),
      (k q u).isSome = true → (matRE re p s k).isSome = true := by
  induction M with
  | eps => intro k hk; exact hk
  | wb hb => intro k hk; simp [matRE, hb, hk]
  | cls hf => intro k hk; simp [matRE, hf, hk]
  | seq Ma Mb iha ihb =>
    intro k hk
    exact iha _ (ihb k hk)
  | altL Ma iha =>
    intro k hk
    have h := iha k hk
    simp only [matRE]
    split
    · rfl
    · next hm => rw [hm] at h; simp at h
  | altR Mb ihb =>
    intro k hk
    simp only [matRE]
    split
    · rfl
    · exact ihb k hk
  | optS Ma iha =>
    intro k hk
    have h := iha k hk
    simp only [matRE]
    split
    · rfl
    · next hm => rw [hm] at h; simp at h
  | optN =>
    intro k hk
    simp only [matRE]
    split
    · rfl
    · exact hk
  | repZ hn =>
    intro k hk
    exact repMat_complete _ _ _ _ _ _ k (.repZ hn) hk
  | repS hf M' _ =>
    intro k hk
    exact repMat_complete _ _ _ _ _ _ k (.repS hf M') hk

/-- `matchLen` succeeds exactly when the declarative semantics accepts a
match at this position. -/
theorem matchLen_isSome_iff (re : RE) (p : Option Char) (s : List Char) :
    (matchLen re p s).isSome = true ↔ ∃ q r, Matches re p s q r := by
  constructor
  · intro h
    unfold matchLen at h
    cases hm : matRE re p s fun _ rest => some rest with
    | none => rw [hm] at h; cases h
    | some r0 =>
      obtain ⟨q, u, M, _⟩ := matRE_sound re p s _ r0 hm
      exact ⟨q, u, M⟩
  · rintro ⟨q, r, M⟩
    have h := matRE_complete M (fun _ rest => some rest) rfl
    unfold matchLen
    cases hm : matRE re p s fun _ rest => some rest with
    | none => rw [hm] at h; cases h
    | some r0 => simp

/-- `matchLen` fails exactly when no match starts here. -/
theorem matchLen_none_iff (re : RE) (p : Option Char) (s : List Char) :
    matchLen re p s = none ↔ ¬∃ q r, Matches re p s q r := by
  rw [← matchLen_isSome_iff]
  cases matchLen re p s <;> simp

/-- `lastCtx` over an empty consumption. -/
theorem lastCtx_nil (p : Option Char) : lastCtx p [] = p := rfl

/-- `lastCtx` after consuming a first character. -/
theorem lastCtx_cons (p : Option Char) (c : Char) (t : List Char) :
    lastCtx p (c :: t) = lastCtx (some c) t := by
  cases t with
  | nil => rfl
  | cons d t' =>
    unfold lastCtx
    rw [List.getLast?_cons_cons]
    cases ht : (d :: t').getLast? with
    | some x => rfl
    | none => exact absurd (List.getLast?_eq_none_iff.mp ht) (by simp)

/-- `lastCtx` over an append. -/
theorem lastCtx_append (p : Option Char) (a b : List Char) :
    lastCtx p (a ++ b) = lastCtx (lastCtx p a) b := by
  induction a generalizing p with
  | nil => rfl
  | cons c a' ih => rw [List.cons_append, lastCtx_cons, lastCtx_cons, ih]

/-- A nonempty consumption makes the final context independent of the
starting context. -/
theorem lastCtx_of_ne_nil (p1 p2 : Option Char) (t : List Char) (h : t ≠ []) :
    lastCtx p1 t = lastCtx p2 t := by
  unfold lastCtx
  cases ht : t.getLast? with
  | some c => rfl
  | none => exact absurd (List.getLast?_eq_none_iff.mp ht) h

/-- Every declarative match consumes a prefix, and the final context is the
last consumed character (or the initial context). -/
theorem Matches_decomp {re : RE} {p q : Option Char} {s r : List Char}
    (M : Matches re p s q r) : ∃ t, s = t ++ r ∧ q = lastCtx p t := by
  induction M with
  | eps => exact ⟨[], rfl, rfl⟩
  | wb _ => exact ⟨[], rfl, rfl⟩
  | cls _ => exact ⟨[_], rfl, rfl⟩
  | seq Ma Mb iha ihb =>
    obtain ⟨ta, hsa, hpa⟩ := iha
    obtain ⟨tb, hsb, hpb⟩ := ihb
    refine ⟨ta ++ tb, ?_, ?_⟩
    · rw [hsa, hsb, List.append_assoc]
    · rw [hpb, hpa, lastCtx_append]
  | altL _ ih => exact ih
  | altR _ ih => exact ih
  | optS _ ih => exact ih
  | optN => exact ⟨[], rfl, rfl⟩
  | repZ _ => exact ⟨[], rfl, rfl⟩
  | @repS f c n pp qq rest rr hf M' ih =>
    obtain ⟨t', hs', hp'⟩ := ih
    refine ⟨c :: t', ?_, ?_⟩
    · rw [List.cons_append, hs']
    · rw [hp', lastCtx_cons]

/-- The characters a match consumes all lie in any class bound of the
pattern. -/
theorem Matches_alpha {re : RE} {P : Char → Bool} (hA : reAlpha re P)
    {p q : Option Char} {s r : List Char} (M : Matches re p s q r) :
    ∃ t, s = t ++ r ∧ q = lastCtx p t ∧ ∀ c ∈ t, P c = true := by
  induction M with
  | eps => exact ⟨[], rfl, rfl, by simp⟩
  | wb _ => exact ⟨[], rfl, rfl, by simp⟩
  | cls hf =>
    refine ⟨[_], rfl, rfl, ?_⟩
    intro c hc
    rw [List.mem_singleton] at hc
    subst hc
    exact hA _ hf
  | seq Ma Mb iha ihb =>
    obtain ⟨ta, hsa, hpa, hca⟩ := iha hA.1
    obtain ⟨tb, hsb, hpb, hcb⟩ := ihb hA.2
    refine ⟨ta ++ tb, ?_, ?_, ?_⟩
    · rw [hsa, hsb, List.append_assoc]
    · rw [hpb, hpa, lastCtx_append]
    · intro c hc
      rcases List.mem_append.mp hc with h | h
      · exact hca c h
      · exact hcb c h
  | altL _ ih => exact ih hA.1
  | altR _ ih => exact ih hA.2
  | optS _ ih => exact ih hA
  | optN => exact ⟨[], rfl, rfl, by simp⟩
  | repZ _ => exact ⟨[], rfl, rfl, by simp⟩
  | @repS f c0 n pp qq rest rr hf M' ih =>
    obtain ⟨t', hs', hp', hc'⟩ := ih hA
    refine ⟨c0 :: t', ?_, ?_, ?_⟩
    · rw [List.cons_append, hs']
    · rw [hp', lastCtx_cons]
    · intro c hc
      rcases List.mem_cons.mp hc with h | h
      · subst h
        exact hA _ hf
      · exact hc' c h

/-- A pattern that must consume a `P`-character indeed consumes one in every
match. -/
theorem Matches_mustcon {re : RE} {P : Char → Bool} (hM : MustCon re P)
    {p q : Option Char} {s r : List Char} (M : Matches re p s q r) :
    ∃ t, s = t ++ r ∧ ∃ c ∈ t, P c = true := by
  induction M with
  | eps => exact absurd hM id
  | wb _ => exact absurd hM id
  | cls hf => exact ⟨[_], rfl, _, List.mem_singleton_self _, hM _ hf⟩
  | seq Ma Mb iha ihb =>
    obtain ⟨ta, hsa, _⟩ := Matches_decomp Ma
    obtain ⟨tb, hsb, _⟩ := Matches_decomp Mb
    rcases hM with h | h
    · obtain ⟨ta', hsa', c, hc, hP⟩ := iha h
      have hta : ta' = ta := List.append_cancel_right (hsa'.symm.trans hsa)
      refine ⟨ta ++ tb, by rw [hsa, hsb, List.append_assoc], c, ?_, hP⟩
      rw [List.mem_append]
      exact Or.inl (hta ▸ hc)
    · obtain ⟨tb', hsb', c, hc, hP⟩ := ihb h
      have htb : tb' = tb := List.append_cancel_right (hsb'.symm.trans hsb)
      refine ⟨ta ++ tb, by rw [hsa, hsb, List.append_assoc], c, ?_, hP⟩
      rw [List.mem_append]
      exact Or.inr (htb ▸ hc)
  | altL _ ih => exact ih hM.1
  | altR _ ih => exact ih hM.2
  | optS _ _ => exact absurd hM id
  | optN => exact absurd hM id
  | repZ hn =>
    rw [MustCon] at hM
    omega
  | repS hf M' _ =>
    obtain ⟨t', hs', _⟩ := Matches_decomp M'
    exact ⟨_ :: t', by rw [List.cons_append, hs'], _, List.mem_cons_self _ _, hM.2 _ hf⟩

/-- A pattern that begins with `\b` only matches at a word boundary. -/
theorem Matches_startsWb {re : RE} (hS : StartsWb re) {p q : Option Char}
    {s r : List Char} (M : Matches re p s q r) : isBoundary p s = true := by
  induction M with
  | eps => exact absurd hS id
  | wb hb => exact hb
  | cls _ => exact absurd hS id
  | seq Ma Mb iha ihb => exact iha hS
  | altL _ _ => exact absurd hS id
  | altR _ _ => exact absurd hS id
  | optS _ _ => exact absurd hS id
  | optN => exact absurd hS id
  | repZ _ => exact absurd hS id
  | repS _ _ _ => exact absurd hS id

/-- A pattern that ends with `\b` leaves a word boundary after the match. -/
theorem Matches_endsWb {re : RE} (hE : EndsWb re) {p q : Option Char}
    {s r : List Char} (M : Matches re p s q r) : isBoundary q r = true := by
  induction M with
  | eps => exact absurd hE id
  | wb hb => exact hb
  | cls _ => exact absurd hE id
  | seq Ma Mb iha ihb => exact ihb hE
  | altL _ _ => exact absurd hE id
  | altR _ _ => exact absurd hE id
  | optS _ _ => exact absurd hE id
  | optN => exact absurd hE id
  | repZ _ => exact absurd hE id
  | repS _ _ _ => exact absurd hE id

/-- A list prepended to itself by another list forces the prefix empty. -/
theorem eq_nil_of_append_left {s t : List Char} (h : s = t ++ s) : t = [] := by
  have h2 := congrArg List.length h
  rw [List.length_append] at h2
  have h3 : t.length = 0 := by omega
  exact List.eq_nil_of_length_eq_zero h3

/-- Cancelling a common suffix of two list concatenations, with the suffix
passed explicitly to guide unification. -/
theorem cancel_suffix {α : Type} (c : List α) {a b : List α}
    (h : a ++ c = b ++ c) : a = b :=
  List.append_cancel_right h

/-- A match depends only on the characters it consumes, the word-status of
the context before it, and the word-status of the first character after it:
it can be transported to any position offering the same consumed characters
and edge statuses. -/
theorem Matches_transport {re : RE} {p1 q1 : Option Char} {s1 r1 : List Char}
    (M : Matches re p1 s1 q1 r1) :
    ∀ t p2 r2, s1 = t ++ r1 → prevW p1 = prevW p2 → headW r1 = headW r2 →
      Matches re p2 (t ++ r2) (lastCtx p2 t) r2 := by
  induction M with
  | eps =>
    intro t p2 r2 hs hp hh
    have ht := eq_nil_of_append_left hs
    subst ht
    exact .eps
  | wb hb =>
    intro t p2 r2 hs hp hh
    have ht := eq_nil_of_append_left hs
    subst ht
    refine .wb ?_
    rw [isBoundary_eq] at hb ⊢
    simp only [List.nil_append]
    rw [← hp, ← hh]
    exact hb
  | @cls f c p rest hf =>
    intro t p2 r2 hs hp hh
    have ht : t = [c] := by
      apply cancel_suffix rest
      rw [← hs]
      rfl
    subst ht
    exact .cls hf
  | @seq a b p pm q s sm r Ma Mb iha ihb =>
    intro t p2 r2 hs hp hh
    obtain ⟨ta, hsa, hpa⟩ := Matches_decomp Ma
    obtain ⟨tb, hsb, hpb⟩ := Matches_decomp Mb
    have hts : t = ta ++ tb := by
      apply cancel_suffix r
      rw [← hs, hsa, hsb, List.append_assoc]
    subst hts
    have hhead : headW sm = headW (tb ++ r2) := by
      cases tb with
      | nil =>
        rw [hsb]
        simpa using hh
      | cons d tb' =>
        rw [hsb]
        rfl
    have hA := iha ta p2 (tb ++ r2) hsa hp hhead
    have hp2 : prevW pm = prevW (lastCtx p2 ta) := by
      cases ta with
      | nil =>
        rw [hpa, lastCtx_nil, lastCtx_nil]
        exact hp
      | cons d ta' =>
        rw [hpa, lastCtx_of_ne_nil p p2 (d :: ta') (by simp)]
    have hB := ihb tb (lastCtx p2 ta) r2 hsb hp2 hh
    have hAB := Matches.seq hA hB
    rw [List.append_assoc, lastCtx_append]
    exact hAB
  | altL Ma iha =>
    intro t p2 r2 hs hp hh
    exact .altL (iha t p2 r2 hs hp hh)
  | altR Mb ihb =>
    intro t p2 r2 hs hp hh
    exact .altR (ihb t p2 r2 hs hp hh)
  | optS Ma iha =>
    intro t p2 r2 hs hp hh
    exact .optS (iha t p2 r2 hs hp hh)
  | optN =>
    intro t p2 r2 hs hp hh
    have ht := eq_nil_of_append_left hs
    subst ht
    exact .optN
  | repZ hn =>
    intro t p2 r2 hs hp hh
    have ht := eq_nil_of_append_left hs
    subst ht
    exact .repZ hn
  | @repS f c n pp qq rest rr hf M' ih =>
    intro t p2 r2 hs hp hh
    obtain ⟨t', hs', hp'⟩ := Matches_decomp M'
    have hts : t = c :: t' := by
      apply cancel_suffix rr
      rw [← hs, hs']
      rfl
    subst hts
    have hsub := ih t' (some c) r2 hs' rfl hh
    rw [lastCtx_cons]
    exact .repS hf hsub

/-- All the structure of a match of a well-formed pattern at once: nonempty
bracket-free consumption containing a digit or `@`, with word boundaries on
both sides. -/
theorem WFPat_match_struct {re : RE} (W : WFPat re) {p q : Option Char}
    {s r : List Char} (M : Matches re p s q r) :
    ∃ t, s = t ++ r ∧ q = lastCtx p t ∧ t ≠ [] ∧ (∀ c ∈ t, bfree c = true) ∧
      (∃ c ∈ t, digitAt c = true) ∧ isBoundary p s = true ∧ isBoundary q r = true := by
  obtain ⟨t, hs, hq, hbf⟩ := Matches_alpha W.alpha M
  obtain ⟨t2, hs2, c, hc, hP⟩ := Matches_mustcon W.mustcon M
  have ht2 : t2 = t := List.append_cancel_right (hs2.symm.trans hs)
  subst ht2
  refine ⟨t2, hs, hq, ?_, hbf, ⟨c, hc, hP⟩, Matches_startsWb W.starts M,
    Matches_endsWb W.ends M⟩
  intro hnil
  subst hnil
  exact absurd hc (List.not_mem_nil c)

/-- No well-formed pattern matches at the end of the input. -/
theorem NoM_nil_any {re : RE} (W : WFPat re) (p : Option Char) : NoM re p [] := by
  rintro ⟨q, r, M⟩
  obtain ⟨t, hs, _, hne, _⟩ := WFPat_match_struct W M
  exact hne (List.append_eq_nil.mp hs.symm).1

/-- The head component of `NoM`. -/
theorem NoM_not_head {re : RE} {p : Option Char} {s : List Char} (h : NoM re p s) :
    ¬∃ q r, Matches re p s q r := by
  cases s with
  | nil => exact h
  | cons c rest => exact h.1

/-- The tail component of `NoM`. -/
theorem NoM_tail {re : RE} {p : Option Char} {c : Char} {rest : List Char}
    (h : NoM re p (c :: rest)) : NoM re (some c) rest := h.2

/-- A match is insensitive to the exact previous character, only to its
word-status. -/
theorem Matches_prev_irrel {re : RE} {p1 p2 q : Option Char} {s r : List Char}
    (hp : prevW p1 = prevW p2) (M : Matches re p1 s q r) :
    ∃ q', Matches re p2 s q' r := by
  obtain ⟨t, hs, _⟩ := Matches_decomp M
  refine ⟨lastCtx p2 t, ?_⟩
  have h := Matches_transport M t p2 r hs hp rfl
  rw [hs]
  exact h

/-- `NoM` is likewise insensitive to the exact previous character. -/
theorem NoM_prev_irrel {re : RE} {p1 p2 : Option Char} {s : List Char}
    (hp : prevW p1 = prevW p2) (h : NoM re p1 s) : NoM re p2 s := by
  cases s with
  | nil =>
    rintro ⟨q, r, M⟩
    obtain ⟨q', M'⟩ := Matches_prev_irrel hp.symm M
    exact NoM_not_head h ⟨q', r, M'⟩
  | cons c rest =>
    refine ⟨?_, h.2⟩
    rintro ⟨q, r, M⟩
    obtain ⟨q', M'⟩ := Matches_prev_irrel hp.symm M
    exact h.1 ⟨q', r, M'⟩

/-- `NoM` restricted past a nonempty consumed prefix. -/
theorem NoM_drop {re : RE} :
    ∀ (t : List Char) {p : Option Char} {rest : List Char}, t ≠ [] →
      NoM re p (t ++ rest) → NoM re (lastCtx p t) rest := by
  intro t
  induction t with
  | nil => intro p rest h; exact absurd rfl h
  | cons c t' ih =>
    intro p rest _ h
    rw [lastCtx_cons]
    cases t' with
    | nil => exact h.2
    | cons d t'' => exact ih (by simp) h.2

/-- Where nothing matches, the global replace copies the input unchanged. -/
theorem NoM_replaceLoop_id (re : RE) (m : List Char) :
    ∀ (s : List Char) (p : Option Char) (fuel : Nat), s.length ≤ fuel →
      NoM re p s → replaceLoop re m fuel p s = s := by
  intro s
  induction s with
  | nil =>
    intro p fuel _ h
    cases fuel with
    | zero => rfl
    | succ f =>
      have hm : matchLen re p [] = none := (matchLen_none_iff re p []).mpr h
      simp [replaceLoop, hm]
  | cons c rest ih =>
    intro p fuel hfuel h
    cases fuel with
    | zero => simp at hfuel
    | succ f =>
      have hm : matchLen re p (c :: rest) = none := (matchLen_none_iff re p _).mpr h.1
      simp only [replaceLoop, hm]
      rw [ih (some c) f (by simp at hfuel; omega) h.2]

/-- Where nothing matches, `replaceAll` is the identity. -/
theorem NoM_replaceAll_id (re : RE) (m : List Char) (s : List Char)
    (h : NoM re none s) : replaceAll re m s = s :=
  NoM_replaceLoop_id re m s none s.length (Nat.le_refl _) h

/-- The nonempty last element of a take is `lastCtx`. -/
theorem getLast?_eq_lastCtx {t : List Char} (p : Option Char) (h : t ≠ []) :
    t.getLast? = lastCtx p t := by
  unfold lastCtx
  cases ht : t.getLast? with
  | some x => rfl
  | none => exact absurd (List.getLast?_eq_none_iff.mp ht) h

/-- A run of the global replace on a well-formed pattern is described by the
`Lays` relation. -/
theorem replaceLoop_lays {re : RE} (W : WFPat re) (m : List Char) :
    ∀ (fuel : Nat) (s : List Char) (p : Option Char), s.length ≤ fuel →
      Lays re m p s (replaceLoop re m fuel p s) := by
  intro fuel
  induction fuel with
  | zero =>
    intro s p h
    have hs : s = [] := List.length_eq_zero.mp (by omega)
    subst hs
    exact .nil
  | succ f ih =>
    intro s p h
    cases s with
    | nil =>
      cases hm : matchLen re p [] with
      | some n =>
        exfalso
        obtain ⟨q, r, M⟩ := (matchLen_isSome_iff re p []).mp (by rw [hm]; rfl)
        obtain ⟨t, hs, _, hne, _⟩ := WFPat_match_struct W M
        exact hne (List.append_eq_nil.mp hs.symm).1
      | none =>
        simp only [replaceLoop, hm]
        exact .nil
    | cons c rest =>
      cases hm : matchLen re p (c :: rest) with
      | none =>
        simp only [replaceLoop, hm]
        exact .copy hm (ih rest (some c) (by simp at h; omega))
      | some n =>
        unfold matchLen at hm
        cases hmat : matRE re p (c :: rest) fun _ u => some u with
        | none => rw [hmat] at hm; cases hm
        | some rest' =>
          rw [hmat] at hm
          obtain ⟨q, u, M, hu⟩ := matRE_sound re p (c :: rest) _ rest' hmat
          have hur : u = rest' := by cases hu; rfl
          subst hur
          obtain ⟨t, hs, hq, hne, _⟩ := WFPat_match_struct W M
          have hlisteq := congrArg List.length hs
          rw [List.length_append] at hlisteq
          have hm' : (c :: rest).length - u.length = n := by simpa using hm
          have hlen : n = t.length := by omega
          have htpos : 1 ≤ t.length := by
            cases t with
            | nil => exact absurd rfl hne
            | cons x xs => simp
          obtain ⟨k, hn⟩ : ∃ k, n = k + 1 := ⟨n - 1, by omega⟩
          have hkt : k + 1 = t.length := by omega
          have htake : (c :: rest).take (k + 1) = t := by
            rw [hs, hkt]
            exact List.take_left t u
          have hdrop : (c :: rest).drop (k + 1) = u := by
            rw [hs, hkt]
            exact List.drop_left t u
          have hnk : (c :: rest).length - u.length = k + 1 := by omega
          have hgoal : replaceLoop re m (f + 1) p (c :: rest)
              = m ++ replaceLoop re m f (((c :: rest).take (k + 1)).getLast?)
                  ((c :: rest).drop (k + 1)) := by
            simp only [replaceLoop, matchLen, hmat, hnk]
          rw [hgoal, htake, hdrop, getLast?_eq_lastCtx p hne]
          have hM' : Matches re p (t ++ u) (lastCtx p t) u := by
            rw [← hs, ← hq]
            exact M
          have hlays := ih u (lastCtx p t) (by
            simp only [List.length_cons] at h hlisteq
            omega)
          have hhit := Lays.hit (m := m) hM' hne hlays
          rw [hs]
          exact hhit

/-- The head word-status of a replace run's output: unchanged, or `false`
when the run starts with a replaced match (and the input's head status is
then determined by the leading word boundary of the match). -/
theorem lays_headW_cases {re : RE} (W : WFPat re) {m : List Char} (hm : MarkerShape m)
    {p : Option Char} {s out : List Char} (L : Lays re m p s out) :
    headW out = headW s ∨ (headW out = false ∧ headW s = !(prevW p)) := by
  cases L with
  | nil => exact Or.inl rfl
  | copy _ _ => exact Or.inl rfl
  | hit M tne L' =>
    right
    obtain ⟨mid, hmid, _⟩ := hm
    constructor
    · rw [hmid]
      simp only [List.cons_append, headW]
      decide
    · have hb := Matches_startsWb W.starts M
      rw [isBoundary_eq] at hb
      cases hp : prevW p <;> cases hh : headW _ <;> rw [hp, hh] at hb <;>
        simp at hb ⊢

/-- A bracket-free prefix of `a ++ ']' :: b` stays within `a`. -/
theorem bfree_prefix :
    ∀ (t a b r : List Char), t ++ r = a ++ ']' :: b →
      (∀ c ∈ t, bfree c = true) → ∃ a', a = t ++ a' := by
  intro t
  induction t with
  | nil => exact fun a b r _ _ => ⟨a, rfl⟩
  | cons c t' ih =>
    intro a b r heq hbf
    cases a with
    | nil =>
      rw [List.nil_append] at heq
      rw [List.cons_append] at heq
      injection heq with h1 _
      subst h1
      have hc := hbf ']' (List.mem_cons_self _ _)
      rw [show bfree ']' = false from by decide] at hc
      cases hc
    | cons a0 a' =>
      rw [List.cons_append, List.cons_append] at heq
      injection heq with h1 h2
      subst h1
      obtain ⟨a'', ha⟩ := ih a' b r h2 (fun x hx => hbf x (List.mem_cons_of_mem _ hx))
      exact ⟨a'', by rw [List.cons_append, ha]⟩

/-- A nonempty bracket-free prefix of a replace run's output, whose end sits
at a word boundary, is also a prefix of the run's input, with the same
word-status following it. -/
theorem lays_prefix {re : RE} (W : WFPat re) {m : List Char} (hm : MarkerShape m) :
    ∀ {p : Option Char} {s out : List Char}, Lays re m p s out →
    ∀ u w, out = u ++ w → u ≠ [] → (∀ c ∈ u, bfree c = true) →
      (∀ x, u.getLast? = some x → (isWordCh x != headW w) = true) →
      ∃ w', s = u ++ w' ∧ headW w = headW w' := by
  intro p s out L
  induction L with
  | nil =>
    intro u w hout hne _ _
    exact absurd (List.append_eq_nil.mp hout.symm).1 hne
  | @copy p c rest out' hml L' ih =>
    intro u w hout hne hbf hlast
    cases u with
    | nil => exact absurd rfl hne
    | cons c0 u' =>
      rw [List.cons_append] at hout
      injection hout with hc hout'
      subst hc
      cases u' with
      | nil =>
        rw [List.nil_append] at hout'
        refine ⟨rest, rfl, ?_⟩
        have hlc := hlast c (by simp)
        rcases lays_headW_cases W hm L' with heq | ⟨hfalse, hrel⟩
        · rw [← hout']
          exact heq
        · rw [hout'] at hfalse
          have hcw : isWordCh c = true := by
            cases hcw0 : isWordCh c
            · rw [hcw0, hfalse] at hlc
              simp at hlc
            · rfl
          rw [hfalse, hrel]
          show false = !prevW (some c)
          rw [show prevW (some c) = isWordCh c from rfl, hcw]
          rfl
      | cons c1 u'' =>
        have hlast' : ∀ x, (c1 :: u'').getLast? = some x →
            (isWordCh x != headW w) = true := by
          intro x hx
          apply hlast
          rw [List.getLast?_cons_cons]
          exact hx
        obtain ⟨w', hw', hh⟩ := ih (c1 :: u'') w hout' (by simp)
          (fun d hd => hbf d (List.mem_cons_of_mem _ hd)) hlast'
        exact ⟨w', by rw [List.cons_append, hw'], hh⟩
  | @hit p t rest out₂ M tne L' ih =>
    intro u w hout hne hbf _
    obtain ⟨mid, hmid, _⟩ := hm
    cases u with
    | nil => exact absurd rfl hne
    | cons c0 u' =>
      rw [hmid, List.cons_append, List.cons_append] at hout
      injection hout with h1 _
      have hc := hbf c0 (List.mem_cons_self _ _)
      rw [← h1, show bfree '[' = false from by decide] at hc
      cases hc

/-- If a well-formed pattern `rei` matches at the start of a replace run's
output, it already matched at the start of the run's input. -/
theorem lays_match_back {rej rei : RE} (Wj : WFPat rej) (Wi : WFPat rei)
    {m : List Char} (hm : MarkerShape m) {p : Option Char} {s out : List Char}
    (L : Lays rej m p s out) {q : Option Char} {r : List Char}
    (Mi : Matches rei p out q r) : ∃ q' r', Matches rei p s q' r' := by
  obtain ⟨u, hout, hq, hne, hbf, _, _, hbE⟩ := WFPat_match_struct Wi Mi
  have hlast : ∀ x, u.getLast? = some x → (isWordCh x != headW r) = true := by
    intro x hx
    rw [isBoundary_eq] at hbE
    have hqx : q = some x := by
      rw [hq]
      unfold lastCtx
      rw [hx]
    rw [hqx] at hbE
    exact hbE
  obtain ⟨w', hs', hh⟩ := lays_prefix Wj hm L u r hout hne hbf hlast
  refine ⟨lastCtx p u, w', ?_⟩
  have ht := Matches_transport Mi u p w' hout rfl hh
  rw [hs']
  exact ht

/-- No match can start inside the interior of a marker followed by the
closing bracket: the consumption cannot cross the bracket and the interior
offers no digit or `@`. -/
theorem NoM_mid {rei : RE} (Wi : WFPat rei) :
    ∀ (mid : List Char) (p : Option Char) (out₂ : List Char),
      (∀ c ∈ mid, bfree c = true ∧ digitAt c = false) →
      NoM rei (some ']') out₂ →
      NoM rei p (mid ++ ']' :: out₂) := by
  intro mid
  induction mid with
  | nil =>
    intro p out₂ _ h2
    refine ⟨?_, h2⟩
    rintro ⟨q, r, M⟩
    obtain ⟨t, hs, _, hne, hbf, _⟩ := WFPat_match_struct Wi M
    cases t with
    | nil => exact hne rfl
    | cons d t' =>
      injection hs with h1 _
      have hc := hbf d (List.mem_cons_self _ _)
      rw [← h1, show bfree ']' = false from by decide] at hc
      cases hc
  | cons d mid' ih =>
    intro p out₂ hmid h2
    refine ⟨?_, ih (some d) out₂ (fun c hc => hmid c (List.mem_cons_of_mem _ hc)) h2⟩
    rintro ⟨q, r, M⟩
    obtain ⟨t, hs, _, hne, hbf, hdig, _⟩ := WFPat_match_struct Wi M
    obtain ⟨a', ha⟩ := bfree_prefix t (d :: mid') out₂ r hs.symm hbf
    obtain ⟨c, hc, hP⟩ := hdig
    have hmem : c ∈ d :: mid' := by
      rw [ha]
      exact List.mem_append_left _ hc
    have := (hmid c hmem).2
    rw [hP] at this
    cases this

/-- Traversing a whole marker: no match starts at or inside it. -/
theorem NoM_through_marker {rei : RE} (Wi : WFPat rei) {mid out₂ : List Char}
    (hmid : ∀ c ∈ mid, bfree c = true ∧ digitAt c = false)
    (h2 : NoM rei (some ']') out₂) (p : Option Char) :
    NoM rei p ('[' :: (mid ++ ']' :: out₂)) := by
  refine ⟨?_, NoM_mid Wi mid (some '[') out₂ hmid h2⟩
  rintro ⟨q, r, M⟩
  obtain ⟨t, hs, _, hne, hbf, _⟩ := WFPat_match_struct Wi M
  cases t with
  | nil => exact hne rfl
  | cons d t' =>
    injection hs with h1 _
    have hc := hbf d (List.mem_cons_self _ _)
    rw [← h1, show bfree '[' = false from by decide] at hc
    cases hc

/-- After a replaced match, cleanliness of the rest of the output with the
input-side context transfers to the context after the closing bracket. -/
theorem NoM_bracket_ctx {rej rei : RE} (Wj : WFPat rej) (Wi : WFPat rei)
    {m : List Char} (hm : MarkerShape m) {pt : Option Char} {rest out₂ : List Char}
    (L' : Lays rej m pt rest out₂) (hbE : isBoundary pt rest = true)
    (h : NoM rei pt out₂) : NoM rei (some ']') out₂ := by
  cases hp : prevW pt with
  | false =>
    exact NoM_prev_irrel (by rw [hp]; decide) h
  | true =>
    cases out₂ with
    | nil => exact NoM_nil_any Wi _
    | cons c tail =>
      refine ⟨?_, NoM_tail h⟩
      rintro ⟨q, r, M⟩
      have hbS := Matches_startsWb Wi.starts M
      rw [isBoundary_eq] at hbS hbE
      have hc : isWordCh c = true := by
        rw [show prevW (some ']') = false from by decide,
          show headW (c :: tail) = isWordCh c from rfl] at hbS
        cases hcw : isWordCh c
        · rw [hcw] at hbS
          simp at hbS
        · rfl
      have hrest : headW rest = false := by
        rw [hp] at hbE
        cases hhr : headW rest
        · rfl
        · rw [hhr] at hbE
          simp at hbE
      rcases lays_headW_cases Wj hm L' with heq | ⟨hfalse, _⟩
      · rw [hrest, show headW (c :: tail) = isWordCh c from rfl, hc] at heq
        cases heq
      · rw [show headW (c :: tail) = isWordCh c from rfl, hc] at hfalse
        cases hfalse

/-- After replacing every match of a well-formed pattern, no match of that
pattern remains anywhere in the output. -/
theorem lays_self_NoM {re : RE} (W : WFPat re) {m : List Char} (hm : MarkerShape m) :
    ∀ {p : Option Char} {s out : List Char}, Lays re m p s out → NoM re p out := by
  intro p s out L
  induction L with
  | nil => exact NoM_nil_any W _
  | @copy p c rest out' hml L' ih =>
    refine ⟨?_, ih⟩
    rintro ⟨q, r, Mi⟩
    obtain ⟨q', r', M'⟩ := lays_match_back W W hm (Lays.copy hml L') Mi
    exact (matchLen_none_iff re p (c :: rest)).mp hml ⟨q', r', M'⟩
  | @hit p t rest out₂ M tne L' ih =>
    have hm' := hm
    obtain ⟨mid, hmid, hmidP⟩ := hm'
    have hbE := Matches_endsWb W.ends M
    have h2 : NoM re (some ']') out₂ := NoM_bracket_ctx W W hm L' hbE ih
    have h3 := NoM_through_marker W hmidP h2 p
    rw [hmid, show ('[' :: mid ++ [']']) ++ out₂ = '[' :: (mid ++ ']' :: out₂) from by simp]
    exact h3

/-- Replacing the matches of one well-formed pattern introduces no match of
any other well-formed pattern. -/
theorem lays_other_NoM {rej rei : RE} (Wj : WFPat rej) (Wi : WFPat rei)
    {m : List Char} (hm : MarkerShape m) :
    ∀ {p : Option Char} {s out : List Char}, Lays rej m p s out →
      NoM rei p s → NoM rei p out := by
  intro p s out L
  induction L with
  | nil => exact fun h => h
  | @copy p c rest out' hml L' ih =>
    intro hin
    refine ⟨?_, ih (NoM_tail hin)⟩
    rintro ⟨q, r, Mi⟩
    obtain ⟨q', r', M'⟩ := lays_match_back Wj Wi hm (Lays.copy hml L') Mi
    exact NoM_not_head hin ⟨q', r', M'⟩
  | @hit p t rest out₂ M tne L' ih =>
    intro hin
    have hm' := hm
    obtain ⟨mid, hmid, hmidP⟩ := hm'
    have hsub : NoM rei (lastCtx p t) rest := NoM_drop t tne hin
    have hbE := Matches_endsWb Wj.ends M
    have h2 : NoM rei (some ']') out₂ := NoM_bracket_ctx Wj Wi hm L' hbE (ih hsub)
    have h3 := NoM_through_marker Wi hmidP h2 p
    rw [hmid, show ('[' :: mid ++ [']']) ++ out₂ = '[' :: (mid ++ ']' :: out₂) from by simp]
    exact h3

/-- A class whose test rejects both brackets is bracket-free. -/
theorem bfree_of_class (f : Char → Bool) (h1 : f '[' = false) (h2 : f ']' = false) :
    ∀ c, f c = true → bfree c = true := by
  intro c hc
  have e1 : c ≠ '[' := fun he => by rw [he, h1] at hc; cases hc
  have e2 : c ≠ ']' := fun he => by rw [he, h2] at hc; cases hc
  simp [bfree, e1, e2]

/-- `reAlpha` through `seqAll`. -/
theorem reAlpha_seqAll {P : Char → Bool} :
    ∀ (l : List RE), (∀ re ∈ l, reAlpha re P) → reAlpha (seqAll l) P := by
  intro l
  induction l with
  | nil => exact fun _ => trivial
  | cons r rest ih =>
    intro h
    cases rest with
    | nil => exact h r (List.mem_cons_self _ _)
    | cons r2 rest2 =>
      exact ⟨h r (List.mem_cons_self _ _),
        ih fun re hre => h re (List.mem_cons_of_mem _ hre)⟩

/-- `reAlpha` for a literal character. -/
theorem reAlpha_lch {c : Char} (h : bfree c = true) : reAlpha (lch c) bfree := by
  intro x hx
  have hxc : x = c := by simpa using hx
  rw [hxc]
  exact h

/-- `reAlpha` for a case-insensitive literal character. -/
theorem reAlpha_lchCI {c : Char} (h1 : bfree c.toLower = true)
    (h2 : bfree c.toUpper = true) : reAlpha (lchCI c) bfree := by
  intro x hx
  rcases (by simpa using hx : x = c.toLower ∨ x = c.toUpper) with h | h <;> rw [h]
  · exact h1
  · exact h2

/-- `reAlpha` for a literal string. -/
theorem reAlpha_litStr {s : String} (h : ∀ c ∈ s.data, bfree c = true) :
    reAlpha (litStr s) bfree := by
  apply reAlpha_seqAll
  intro re hre
  rw [List.mem_map] at hre
  obtain ⟨c, hc, rfl⟩ := hre
  exact reAlpha_lch (h c hc)

/-- `reAlpha` for a case-insensitive literal string. -/
theorem reAlpha_litStrCI {s : String}
    (h : ∀ c ∈ s.data, bfree c.toLower = true ∧ bfree c.toUpper = true) :
    reAlpha (litStrCI s) bfree := by
  apply reAlpha_seqAll
  intro re hre
  rw [List.mem_map] at hre
  obtain ⟨c, hc, rfl⟩ := hre
  exact reAlpha_lchCI (h c hc).1 (h c hc).2

/-- `reAlpha` for `\d{n}`. -/
theorem reAlpha_digN (n : Nat) : reAlpha (digN n) bfree := by
  apply reAlpha_seqAll
  intro re hre
  rw [List.eq_of_mem_replicate hre]
  exact bfree_of_class Char.isDigit (by decide) (by decide)

/-- A digit class must consume a `digitAt` character. -/
theorem mustcon_dig : MustCon dig digitAt := by
  intro c h
  simp [digitAt, h]

/-- The digit repetitions of the record patterns consume a digit. -/
theorem mustcon_repDig (n : Nat) (hn : 1 ≤ n) : MustCon (.rep Char.isDigit n) digitAt := by
  refine ⟨hn, ?_⟩
  intro c h
  simp [digitAt, h]

/-- The literal `@` consumes a `digitAt` character. -/
theorem mustcon_at : MustCon (lch '@') digitAt := by
  intro c h
  have hc : c = '@' := by simpa using h
  rw [hc]
  decide

/-- The month group consumes a digit on either alternative. -/
theorem mustcon_month : MustCon dobMonth digitAt := by
  refine ⟨Or.inl ?_, Or.inl ?_⟩ <;>
    · intro c h
      have hc := of_decide_eq_true h
      rw [hc]
      decide

/-- The SSN pattern is well formed. -/
theorem wf_ssn : WFPat ssnRE := by
  refine ⟨trivial, trivial, ?_, ?_⟩
  · apply reAlpha_seqAll
    intro re hre
    simp only [ssnRE, List.mem_cons, List.not_mem_nil, or_false] at hre
    rcases hre with rfl | rfl | rfl | rfl | rfl | rfl | rfl
    · trivial
    · exact reAlpha_digN 3
    · exact reAlpha_lch (by decide)
    · exact reAlpha_digN 2
    · exact reAlpha_lch (by decide)
    · exact reAlpha_digN 4
    · trivial
  · exact Or.inr (Or.inl (Or.inl mustcon_dig))

/-- The phone pattern is well formed. -/
theorem wf_phone : WFPat phoneRE := by
  refine ⟨trivial, trivial, ?_, ?_⟩
  · apply reAlpha_seqAll
    intro re hre
    simp only [phoneRE, List.mem_cons, List.not_mem_nil, or_false] at hre
    rcases hre with rfl | rfl | rfl | rfl | rfl | rfl | rfl
    · trivial
    · exact reAlpha_digN 3
    · exact bfree_of_class _ (by decide) (by decide)
    · exact reAlpha_digN 3
    · exact bfree_of_class _ (by decide) (by decide)
    · exact reAlpha_digN 4
    · trivial
  · exact Or.inr (Or.inl (Or.inl mustcon_dig))

/-- The email pattern is well formed. -/
theorem wf_email : WFPat emailRE := by
  refine ⟨trivial, trivial, ?_, ?_⟩
  · apply reAlpha_seqAll
    intro re hre
    simp only [emailRE, List.mem_cons, List.not_mem_nil, or_false] at hre
    rcases hre with rfl | rfl | rfl | rfl | rfl | rfl | rfl
    · trivial
    · exact bfree_of_class emailLocalCh (by decide) (by decide)
    · exact reAlpha_lch (by decide)
    · exact bfree_of_class emailDomainCh (by decide) (by decide)
    · exact reAlpha_lch (by decide)
    · exact bfree_of_class emailTldCh (by decide) (by decide)
    · trivial
  · exact Or.inr (Or.inr (Or.inl mustcon_at))

/-- The date-of-birth pattern is well formed. -/
theorem wf_dob : WFPat dobRE := by
  refine ⟨trivial, trivial, ?_, ?_⟩
  · apply reAlpha_seqAll
    intro re hre
    simp only [dobRE, List.mem_cons, List.not_mem_nil, or_false] at hre
    rcases hre with rfl | rfl | rfl | rfl | rfl | rfl | rfl | rfl
    · trivial
    · exact ⟨⟨reAlpha_lch (by decide), bfree_of_class _ (by decide) (by decide)⟩,
        ⟨reAlpha_lch (by decide), bfree_of_class _ (by decide) (by decide)⟩⟩
    · exact bfree_of_class _ (by decide) (by decide)
    · exact ⟨⟨reAlpha_lch (by decide), bfree_of_class _ (by decide) (by decide)⟩,
        ⟨⟨bfree_of_class _ (by decide) (by decide),
          bfree_of_class Char.isDigit (by decide) (by decide)⟩,
         ⟨reAlpha_lch (by decide), bfree_of_class _ (by decide) (by decide)⟩⟩⟩
    · exact bfree_of_class _ (by decide) (by decide)
    · exact ⟨reAlpha_litStr (by decide), reAlpha_litStr (by decide)⟩
    · exact reAlpha_digN 2
    · trivial
  · exact Or.inr (Or.inl mustcon_month)

/-- The medical-record pattern is well formed. -/
theorem wf_mr : WFPat mrRE := by
  refine ⟨trivial, trivial, ?_, ?_⟩
  · apply reAlpha_seqAll
    intro re hre
    simp only [mrRE, List.mem_cons, List.not_mem_nil, or_false] at hre
    rcases hre with rfl | rfl | rfl | rfl | rfl | rfl | rfl
    · trivial
    · exact ⟨reAlpha_litStrCI (by decide),
        ⟨reAlpha_litStrCI (by decide),
         ⟨reAlpha_litStrCI (by decide),
          ⟨bfree_of_class _ (by decide) (by decide), reAlpha_litStrCI (by decide)⟩⟩⟩⟩
    · exact bfree_of_class _ (by decide) (by decide)
    · exact reAlpha_lch (by decide)
    · exact bfree_of_class _ (by decide) (by decide)
    · exact bfree_of_class Char.isDigit (by decide) (by decide)
    · trivial
  · exact Or.inr (Or.inr (Or.inr (Or.inr (Or.inr (Or.inl (mustcon_repDig 6 (by omega)))))))

/-- The health-card pattern is well formed. -/
theorem wf_hc : WFPat hcRE := by
  refine ⟨trivial, trivial, ?_, ?_⟩
  · apply reAlpha_seqAll
    intro re hre
    simp only [hcRE, List.mem_cons, List.not_mem_nil, or_false] at hre
    rcases hre with rfl | rfl | rfl | rfl | rfl | rfl | rfl
    · trivial
    · exact ⟨reAlpha_litStrCI (by decide),
        ⟨reAlpha_litStrCI (by decide),
         ⟨bfree_of_class _ (by decide) (by decide), reAlpha_litStrCI (by decide)⟩⟩⟩
    · exact bfree_of_class _ (by decide) (by decide)
    · exact reAlpha_lch (by decide)
    · exact bfree_of_class _ (by decide) (by decide)
    · exact bfree_of_class Char.isDigit (by decide) (by decide)
    · trivial
  · exact Or.inr (Or.inr (Or.inr (Or.inr (Or.inr (Or.inl (mustcon_repDig 8 (by omega)))))))

/-- The redaction markers all have the inert bracketed shape. -/
theorem markerShape_ssn : MarkerShape (redactedMarker "SSN").data :=
  ⟨"REDACTED_SSN".data, by decide, by decide⟩

/-- Likewise for the phone marker. -/
theorem markerShape_phone : MarkerShape (redactedMarker "PHONE").data :=
  ⟨"REDACTED_PHONE".data, by decide, by decide⟩

/-- Likewise for the email marker. -/
theorem markerShape_email : MarkerShape (redactedMarker "EMAIL").data :=
  ⟨"REDACTED_EMAIL".data, by decide, by decide⟩

/-- Likewise for the date-of-birth marker. -/
theorem markerShape_dob : MarkerShape (redactedMarker "DATE_OF_BIRTH").data :=
  ⟨"REDACTED_DATE_OF_BIRTH".data, by decide, by decide⟩

/-- Likewise for the medical-record marker. -/
theorem markerShape_mr : MarkerShape (redactedMarker "MEDICAL_RECORD").data :=
  ⟨"REDACTED_MEDICAL_RECORD".data, by decide, by decide⟩

/-- Likewise for the health-card marker. -/
theorem markerShape_hc : MarkerShape (redactedMarker "HEALTH_CARD").data :=
  ⟨"REDACTED_HEALTH_CARD".data, by decide, by decide⟩

/-- Every full `replaceAll` run is a `Lays` run. -/
theorem replaceAll_lays {re : RE} (W : WFPat re) (m s : List Char) :
    Lays re m none s (replaceAll re m s) :=
  replaceLoop_lays W m s.length s none (Nat.le_refl _)

/-- After one full sanitization pass, no pattern matches anywhere. -/
theorem sanitizeStr_NoM (s : List Char) :
    NoM ssnRE none (sanitizeStr s) ∧ NoM phoneRE none (sanitizeStr s) ∧
    NoM emailRE none (sanitizeStr s) ∧ NoM dobRE none (sanitizeStr s) ∧
    NoM mrRE none (sanitizeStr s) ∧ NoM hcRE none (sanitizeStr s) := by
  have heq : sanitizeStr s =
      replaceAll hcRE (redactedMarker "HEALTH_CARD").data
        (replaceAll mrRE (redactedMarker "MEDICAL_RECORD").data
          (replaceAll dobRE (redactedMarker "DATE_OF_BIRTH").data
            (replaceAll emailRE (redactedMarker "EMAIL").data
              (replaceAll phoneRE (redactedMarker "PHONE").data
                (replaceAll ssnRE (redactedMarker "SSN").data s))))) := rfl
  set s1 := replaceAll ssnRE (redactedMarker "SSN").data s with hs1
  set s2 := replaceAll phoneRE (redactedMarker "PHONE").data s1 with hs2
  set s3 := replaceAll emailRE (redactedMarker "EMAIL").data s2 with hs3
  set s4 := replaceAll dobRE (redactedMarker "DATE_OF_BIRTH").data s3 with hs4
  set s5 := replaceAll mrRE (redactedMarker "MEDICAL_RECORD").data s4 with hs5
  set s6 := replaceAll hcRE (redactedMarker "HEALTH_CARD").data s5 with hs6
  have L1 := replaceAll_lays wf_ssn (redactedMarker "SSN").data s
  have L2 := replaceAll_lays wf_phone (redactedMarker "PHONE").data s1
  have L3 := replaceAll_lays wf_email (redactedMarker "EMAIL").data s2
  have L4 := replaceAll_lays wf_dob (redactedMarker "DATE_OF_BIRTH").data s3
  have L5 := replaceAll_lays wf_mr (redactedMarker "MEDICAL_RECORD").data s4
  have L6 := replaceAll_lays wf_hc (redactedMarker "HEALTH_CARD").data s5
  have h1a : NoM ssnRE none s1 := lays_self_NoM wf_ssn markerShape_ssn L1
  have h2a : NoM phoneRE none s2 := lays_self_NoM wf_phone markerShape_phone L2
  have h1b : NoM ssnRE none s2 :=
    lays_other_NoM wf_phone wf_ssn markerShape_phone L2 h1a
  have h3a : NoM emailRE none s3 := lays_self_NoM wf_email markerShape_email L3
  have h2b : NoM phoneRE none s3 :=
    lays_other_NoM wf_email wf_phone markerShape_email L3 h2a
  have h1c : NoM ssnRE none s3 :=
    lays_other_NoM wf_email wf_ssn markerShape_email L3 h1b
  have h4a : NoM dobRE none s4 := lays_self_NoM wf_dob markerShape_dob L4
  have h3b : NoM emailRE none s4 :=
    lays_other_NoM wf_dob wf_email markerShape_dob L4 h3a
  have h2c : NoM phoneRE none s4 :=
    lays_other_NoM wf_dob wf_phone markerShape_dob L4 h2b
  have h1d : NoM ssnRE none s4 :=
    lays_other_NoM wf_dob wf_ssn markerShape_dob L4 h1c
  have h5a : NoM mrRE none s5 := lays_self_NoM wf_mr markerShape_mr L5
  have h4b : NoM dobRE none s5 :=
    lays_other_NoM wf_mr wf_dob markerShape_mr L5 h4a
  have h3c : NoM emailRE none s5 :=
    lays_other_NoM wf_mr wf_email markerShape_mr L5 h3b
  have h2d : NoM phoneRE none s5 :=
    lays_other_NoM wf_mr wf_phone markerShape_mr L5 h2c
  have h1e : NoM ssnRE none s5 :=
    lays_other_NoM wf_mr wf_ssn markerShape_mr L5 h1d
  have h6a : NoM hcRE none s6 := lays_self_NoM wf_hc markerShape_hc L6
  have h5b : NoM mrRE none s6 :=
    lays_other_NoM wf_hc wf_mr markerShape_hc L6 h5a
  have h4c : NoM dobRE none s6 :=
    lays_other_NoM wf_hc wf_dob markerShape_hc L6 h4b
  have h3d : NoM emailRE none s6 :=
    lays_other_NoM wf_hc wf_email markerShape_hc L6 h3c
  have h2e : NoM phoneRE none s6 :=
    lays_other_NoM wf_hc wf_phone markerShape_hc L6 h2d
  have h1f : NoM ssnRE none s6 :=
    lays_other_NoM wf_hc wf_ssn markerShape_hc L6 h1e
  rw [heq]
  exact ⟨h1f, h2e, h3d, h4c, h5b, h6a⟩

/-- `sanitizeStr` unfolded into its six sequential replacement stages. -/
theorem sanitizeStr_eq (t : List Char) :
    sanitizeStr t =
      replaceAll hcRE (redactedMarker "HEALTH_CARD").data
        (replaceAll mrRE (redactedMarker "MEDICAL_RECORD").data
          (replaceAll dobRE (redactedMarker "DATE_OF_BIRTH").data
            (replaceAll emailRE (redactedMarker "EMAIL").data
              (replaceAll phoneRE (redactedMarker "PHONE").data
                (replaceAll ssnRE (redactedMarker "SSN").data t))))) := rfl

/-- The string pass of `sanitizeForExport` is idempotent. -/
theorem sanitizeStr_idempotent (s : List Char) :
    sanitizeStr (sanitizeStr s) = sanitizeStr s := by
  obtain ⟨h1, h2, h3, h4, h5, h6⟩ := sanitizeStr_NoM s
  rw [sanitizeStr_eq (sanitizeStr s), NoM_replaceAll_id _ _ _ h1,
    NoM_replaceAll_id _ _ _ h2, NoM_replaceAll_id _ _ _ h3,
    NoM_replaceAll_id _ _ _ h4, NoM_replaceAll_id _ _ _ h5,
    NoM_replaceAll_id _ _ _ h6]

/-- Round trip between packed strings and character lists. -/
theorem data_asString (l : List Char) : (l.asString).data = l := rfl

mutual

/-- Idempotence of `sanitizeForExport`, value case (mutual with the array
and object cases). -/
theorem sanitize_idem_val :
    ∀ v : JsValue, sanitizeForExport (sanitizeForExport v) = sanitizeForExport v
  | .str s => by
    show JsValue.str (sanitizeStr ((sanitizeStr s.data).asString).data).asString
        = JsValue.str (sanitizeStr s.data).asString
    rw [data_asString, sanitizeStr_idempotent]
  | .num n => rfl
  | .bool b => rfl
  | .null => rfl
  | .arr l => by
    show JsValue.arr (sanitizeArr (sanitizeArr l)) = JsValue.arr (sanitizeArr l)
    rw [sanitize_idem_arr l]
  | .obj l => by
    show JsValue.obj (sanitizeObj (sanitizeObj l)) = JsValue.obj (sanitizeObj l)
    rw [sanitize_idem_obj l]

/-- Idempotence of `sanitizeForExport`, array case. -/
theorem sanitize_idem_arr :
    ∀ l : List JsValue, sanitizeArr (sanitizeArr l) = sanitizeArr l
  | [] => rfl
  | v :: rest => by
    show sanitizeForExport (sanitizeForExport v) :: sanitizeArr (sanitizeArr rest)
        = sanitizeForExport v :: sanitizeArr rest
    rw [sanitize_idem_val v, sanitize_idem_arr rest]

/-- Idempotence of `sanitizeForExport`, object case. -/
theorem sanitize_idem_obj :
    ∀ l : List (String × JsValue), sanitizeObj (sanitizeObj l) = sanitizeObj l
  | [] => rfl
  | (k, v) :: rest => by
    show (k, sanitizeForExport (sanitizeForExport v)) :: sanitizeObj (sanitizeObj rest)
        = (k, sanitizeForExport v) :: sanitizeObj rest
    rw [sanitize_idem_val v, sanitize_idem_obj rest]

end

/-- C5: on every cycle-free value built from strings, arrays, objects and
other scalars, applying `sanitizeForExport` twice yields the same result as
applying it once — the inserted redaction markers never produce a new match
of any of the six PHI patterns. -/
theorem sanitizeForExport_idempotent (v : JsValue) :
    sanitizeForExport (sanitizeForExport v) = sanitizeForExport v :=
  sanitize_idem_val v

end Vigilant
